import Mathlib

/-!
Shallow embedding of the `goose` package installer (Go sources
`pkg` — specifier parsing, registry resolution, cache store, install
orchestrator — and `main.go` — the CLI loop), together with proofs of
the behavioural properties of its components.

Modelling conventions:
* Go strings are Lean `String`s; character-level work goes through
  `String.toList` (the source only ever splits on the ASCII characters
  `'@'`, `'/'`, `' '` and `'.'`, so char-level splitting coincides with
  Go's byte-level splitting).
* Filesystem paths are lists of segments (`Path`); `filepath.Join`'s
  lexical cleaning of `"."` / `".."` / empty segments is `cleanSegs`,
  with the base directory treated as the root (matching Go's behaviour
  on the absolute, already-clean base paths the program uses).
* The network and the filesystem are explicit: an `Env` carries the
  registry/archive responses and fault oracles for each filesystem
  operation, an `St` carries the visited set, the set of on-disk paths
  and the set of symlinks, and every operation additionally returns the
  list of observable effects (`Ev`) it performed, in order.
* The Masterminds semver library is an external dependency of the
  repository; `resolvePackage` is therefore parameterised by a `Semver`
  interface (version/constraint parsing, constraint check, strict
  ordering).  `toySemver` is a small concrete instance used to evaluate
  the definitions on closed inputs.
* `Install` can recurse unboundedly on cyclic dependency graphs (the
  source has no cycle guard), so the Lean model takes a fuel parameter;
  exhausted fuel is the distinguished error `Err.outOfFuel`.
-/

set_option autoImplicit false

deriving instance DecidableEq for Except

namespace Goose

/-- Error values of the program.  The Go code uses `errors.New` /
`fmt.Errorf`; each distinct error site is a constructor, and
`fmt.Errorf("...: %w", e)` wrapping is `Err.wrap ctx e` where `ctx` is
the formatted context text. -/
inductive Err where
  /-- Go error `"package name cannot be empty"`. -/
  | emptyInput
  /-- Go error `"package name cannot be empty before '@'"`. -/
  | emptyNameBeforeAt
  /-- Go error `"invalid scoped package"`. -/
  | invalidScopedPackage
  /-- Go error `"invalid scoped package name"`. -/
  | invalidScopedName
  /-- Go error `"package name cannot contain spaces"`. -/
  | containsSpaces
  /-- metadata transport failure (`"fetch metadata: %w"`) -/
  | fetchMetadata
  /-- Go error `"unexpected status code %d"`. -/
  | unexpectedStatus (code : Nat)
  /-- Go error `"decode metadata: %w"`. -/
  | decodeMetadata
  /-- Go error `"invalid version constraint %q: %w"`. -/
  | invalidConstraint (selector : String)
  /-- Go error `"no matching version found for %s@%s"`. -/
  | noMatchingVersion (name selector : String)
  /-- Failure of `os.UserCacheDir` (`"get user cache dir: %w"`). -/
  | userCacheDirErr
  /-- archive transport failure (`"http get: %w"`) -/
  | archiveGet (url : String)
  /-- Go error `"gzip reader: %w"`. -/
  | gzipErr
  /-- Go error `"read tar: %w"`. -/
  | tarErr
  /-- a failed `os.MkdirAll` -/
  | fsMkdir (p : List String)
  /-- a failed `os.Create` -/
  | fsCreate (p : List String)
  /-- a failed `io.Copy` -/
  | fsCopy (p : List String)
  /-- a failed `os.Symlink` -/
  | fsSymlink (p : List String)
  /-- fuel exhaustion of the Lean model (unbounded recursion in Go) -/
  | outOfFuel
  /-- Wrapping by `fmt.Errorf` with a context text and `%w`. -/
  | wrap (ctx : String) (e : Err)
deriving DecidableEq

/-- The parsed `PackageInfo{Name, Version}` structure.  `version` holds
the raw selector (`"latest"`, exact version, dist-tag or range). -/
structure PackageInfo where
  name : String
  version : String
deriving DecidableEq

/-- First-match association-list lookup, modelling Go map indexing
(Go maps have unique keys, so first-match agrees with the map). -/
def lookup {α : Type} : List (String × α) → String → Option α
  | [], _ => none
  | (k, v) :: rest, key => if k = key then some v else lookup rest key

/-! ## Specifier parsing (`Parse`, part_000 lines 35-66) -/

/-- Split at the first `'@'`: returns the characters before it and, when
one occurs, the characters after it.  Models the combination of
`strings.Contains(arg, "@")` and `strings.SplitN(arg, "@", 2)`. -/
def breakAt : List Char → List Char × Option (List Char)
  | [] => ([], none)
  | c :: rest =>
    if c = '@' then ([], some rest)
    else
      match breakAt rest with
      | (n, r) => (c :: n, r)

/-- Index of the last `'@'` in the string, when one occurs.  Models
`strings.LastIndex(arg, "@")` (which returns `-1` when absent — callers
below only reach it when an `'@'` is present). -/
def lastIdxAt : List Char → Option Nat
  | [] => none
  | c :: rest =>
    match lastIdxAt rest with
    | some i => some (i + 1)
    | none => if c = '@' then some 0 else none

/-- The function `Parse` (part_000 lines 35-66): turn a raw command-line token into a
`PackageInfo`.  Branch-for-branch translation of the Go source. -/
def Parse (arg : String) : Except Err PackageInfo :=
  let s := arg.toList
  if s = [] then .error .emptyInput
  else if '@' ∈ s ∧ s.head? ≠ some '@' then
    match breakAt s with
    | (before, some after) =>
      if before = [] then .error .emptyNameBeforeAt
      else .ok ⟨String.mk before, String.mk after⟩
    | (_, none) => .error .emptyNameBeforeAt
  else if s.head? = some '@' then
    let i := (lastIdxAt s).getD 0
    if 0 < i then
      let name := s.take i
      if name = [] then .error .invalidScopedPackage
      else .ok ⟨String.mk name, String.mk (s.drop (i + 1))⟩
    else if s.count '/' < 1 then .error .invalidScopedName
    else .ok ⟨arg, "latest"⟩
  else if ' ' ∈ s then .error .containsSpaces
  else .ok ⟨arg, "latest"⟩

/-! ## Registry resolution (`resolvePackage`, part_000 lines 114-171) -/

/-- One entry of the `versions` mapping of a registry metadata document:
the archive URL (`dist.tarball`) and the dependency selector mapping. -/
structure VersionInfo where
  tarball : String
  dependencies : List (String × String)
deriving DecidableEq

/-- The `PackageMeta` registry metadata document.  Go's JSON maps are
modelled as association lists with (in well-formed documents) distinct
keys. -/
structure PackageMeta where
  distTags : List (String × String)
  versions : List (String × VersionInfo)
deriving DecidableEq

/-- A successful resolution: concrete version, archive URL, and
dependency selector mapping. -/
structure Resolved where
  version : String
  tarball : String
  deps : List (String × String)
deriving DecidableEq

/-- Interface of the external Masterminds semver library as used by the
source: version parsing (`semver.NewVersion`), range-constraint parsing
(`semver.NewConstraint`), constraint satisfaction (`Constraint.Check`)
and strict comparison (`Version.GreaterThan`). -/
structure Semver where
  Ver : Type
  Constraint : Type
  newVersion : String → Option Ver
  newConstraint : String → Option Constraint
  check : Constraint → Ver → Bool
  gt : Ver → Ver → Bool

/-- The scanning loop of `resolvePackage` (part_000 lines 149-163): walk
the `versions` keys, keeping the greatest parseable key satisfying the
constraint.  The accumulator mirrors the Go pair
`(matchedVersion, matchedSemver)`, starting from `("", nil)`. -/
def scanMax (sv : Semver) (c : sv.Constraint) :
    List (String × VersionInfo) → String × Option sv.Ver → String × Option sv.Ver
  | [], acc => acc
  | (v, _) :: rest, acc =>
    match sv.newVersion v with
    | none => scanMax sv c rest acc
    | some ver =>
      if sv.check c ver then
        match acc.2 with
        | none => scanMax sv c rest (v, some ver)
        | some m => if sv.gt ver m then scanMax sv c rest (v, some ver) else scanMax sv c rest acc
      else scanMax sv c rest acc

/-- The pure resolution algorithm of `resolvePackage` (part_000 lines
135-170), applied to an already fetched and decoded metadata document:
dist-tag substitution, exact `versions` lookup, then range scan.
`(lookup … ).getD ⟨"", []⟩` mirrors Go's zero-value map indexing
`meta.Versions[matchedVersion]`. -/
def resolvePackage (sv : Semver) (meta : PackageMeta) (pkg : PackageInfo) : Except Err Resolved :=
  let version :=
    match lookup meta.distTags pkg.version with
    | some t => t
    | none => pkg.version
  match lookup meta.versions version with
  | some vinfo => .ok ⟨version, vinfo.tarball, vinfo.dependencies⟩
  | none =>
    match sv.newConstraint version with
    | none => .error (.invalidConstraint version)
    | some c =>
      match scanMax sv c meta.versions ("", none) with
      | (matchedVersion, _) =>
        if matchedVersion = "" then .error (.noMatchingVersion pkg.name pkg.version)
        else
          let vinfo := (lookup meta.versions matchedVersion).getD ⟨"", []⟩
          .ok ⟨matchedVersion, vinfo.tarball, vinfo.dependencies⟩

/-- Model of `strings.ReplaceAll(name, "/", "%2F")` on the character level. -/
def encSlash : List Char → List Char
  | [] => []
  | c :: rest => if c = '/' then '%' :: '2' :: 'F' :: encSlash rest else c :: encSlash rest

/-- The metadata-request identifier (part_000 lines 115-118): scoped
names have their `/` percent-encoded. -/
def encodeName (name : String) : String :=
  if name.toList.head? = some '@' then String.mk (encSlash name.toList) else name

/-- The metadata URL `"https://registry.npmjs.org/" + encoded`. -/
def registryURL (name : String) : String :=
  "https://registry.npmjs.org/" ++ encodeName name

/-! ## Paths and the on-disk state -/

/-- A filesystem path, as a list of segments from the root. -/
abbrev Path := List String

/-- Split a character list on a separator character. -/
def splitOnCharL (sep : Char) (s : List Char) : List (List Char) :=
  s.foldr
    (fun ch acc =>
      if ch = sep then [] :: acc
      else
        match acc with
        | h :: t => (ch :: h) :: t
        | [] => [[ch]])
    [[]]

/-- Split a string on `'/'` into raw segments. -/
def splitSlash (s : String) : List String :=
  (splitOnCharL '/' s.toList).map String.mk

/-- Lexical path cleaning of `filepath.Join`: starting from an already
clean base, drop empty and `"."` segments and let `".."` pop the last
segment (popping stops at the root, as Go's `Clean` does for absolute
paths). -/
def cleanSegs : Path → List String → Path
  | acc, [] => acc
  | acc, seg :: rest =>
    if seg = "" ∨ seg = "." then cleanSegs acc rest
    else if seg = ".." then cleanSegs acc.dropLast rest
    else cleanSegs (acc ++ [seg]) rest

/-- Render a path for error-message contexts. -/
def pathStr (p : Path) : String :=
  p.foldl (fun a s => a ++ "/" ++ s) ""

/-- All nonempty ancestors of a path, itself included. -/
def ancestors (p : Path) : List Path :=
  (List.range p.length).map (fun i => p.take (i + 1))

/-- Effect of `os.MkdirAll p` on the set of existing paths: every
directory on the way down to `p` now exists. -/
def mkdirAllD (disk : List Path) (p : Path) : List Path :=
  disk ++ ancestors p

/-- Observable effects, in order of occurrence. -/
inductive Ev where
  /-- registry metadata `http.Get` (resolver call) -/
  | metadataFetch (url : String)
  /-- archive `http.Get` -/
  | archiveFetch (url : String)
  /-- extraction work (mkdir / create / copy) aimed at a target path -/
  | extractOp (target : Path)
  /-- A call of `os.Symlink cachePath linkPath`. -/
  | link (linkPath cachePath : Path)
deriving DecidableEq

/-- Is the event a network archive fetch? -/
def isFetchEv : Ev → Bool
  | .archiveFetch _ => true
  | _ => false

/-- Is the event extraction work? -/
def isExtractEv : Ev → Bool
  | .extractOp _ => true
  | _ => false

/-! ## Cache population (`downloadAndExtract`, part_000 lines 182-232) -/

/-- One tar-archive entry header: its recorded name and whether it is a
directory.  (File contents play no role in the verified properties; a
created file is tracked by its path.) -/
structure TarEntry where
  name : String
  isDir : Bool
deriving DecidableEq

/-- Fault oracles for the filesystem operations the source performs;
`true` means the corresponding OS call fails at that path. -/
structure FS where
  mkdirFails : Path → Bool
  createFails : Path → Bool
  copyFails : Path → Bool
  symlinkFails : Path → Bool
  removeAllFails : Path → Bool

/-- Combination of `strings.HasPrefix(name, "package/")` plus
`strings.TrimPrefix(name, "package/")`: the remainder when the entry
name carries the conventional `package/` root. -/
def stripPkgRoot : List Char → Option (List Char)
  | 'p' :: 'a' :: 'c' :: 'k' :: 'a' :: 'g' :: 'e' :: '/' :: rest => some rest
  | _ => none

/-- Process one tar entry (the body of the loop at part_000 lines
196-230): skip entries outside `package/`, create directory entries with
`MkdirAll`, and for file entries create the parent directories, create
the file and copy its bytes.  Returns the outcome, the new disk state
and the effects performed. -/
def extractOne (fs : FS) (dest : Path) (e : TarEntry) (disk : List Path) :
    Except Err Unit × List Path × List Ev :=
  match stripPkgRoot e.name.toList with
  | none => (.ok (), disk, [])
  | some rel =>
    let target := cleanSegs dest ((splitOnCharL '/' rel).map String.mk)
    if e.isDir then
      if fs.mkdirFails target then
        (.error (.wrap ("mkdir " ++ pathStr target) (.fsMkdir target)), disk, [.extractOp target])
      else (.ok (), mkdirAllD disk target, [.extractOp target])
    else
      let parent := target.dropLast
      if fs.mkdirFails parent then
        (.error (.wrap ("mkdir parent " ++ pathStr target) (.fsMkdir parent)), disk,
          [.extractOp target])
      else
        let disk1 := mkdirAllD disk parent
        if fs.createFails target then
          (.error (.wrap ("create file " ++ pathStr target) (.fsCreate target)), disk1,
            [.extractOp target])
        else
          let disk2 := disk1 ++ [target]
          if fs.copyFails target then
            (.error (.wrap ("copy to " ++ pathStr target) (.fsCopy target)), disk2,
              [.extractOp target])
          else (.ok (), disk2, [.extractOp target])

/-- The extraction loop over the decoded tar entries: first error stops
the walk and is returned as is; the disk state reached so far is kept. -/
def extractEntries (fs : FS) (dest : Path) :
    List TarEntry → List Path → Except Err Unit × List Path × List Ev
  | [], disk => (.ok (), disk, [])
  | e :: rest, disk =>
    match extractOne fs dest e disk with
    | (.error err, disk1, tr) => (.error err, disk1, tr)
    | (.ok _, disk1, tr) =>
      match extractEntries fs dest rest disk1 with
      | (r, disk2, tr') => (r, disk2, tr ++ tr')

/-! ## Process state and environment -/

/-- Mutable state of one process run: the visited set `installed`
(part_000 line 33), the set of existing on-disk paths, and the symlinks
(link location ↦ referenced path). -/
structure St where
  installed : List String
  disk : List Path
  links : List (Path × Path)
deriving DecidableEq

/-- The empty starting state of a fresh process with a fresh disk. -/
def St.init : St := ⟨[], [], []⟩

/-- The external world: the semver library, the registry (metadata
responses, already decoded — transport, status and decoding failures
are returned as the corresponding `Err`), the archive host (already
gunzipped and tar-decoded entry lists), `os.UserCacheDir`, and the
filesystem fault oracles. -/
structure Env where
  sv : Semver
  fetchMeta : String → Except Err PackageMeta
  fetchArchive : String → Except Err (List TarEntry)
  userCacheDir : Except Err Path
  fs : FS

/-- The function `resolvePackage` including its metadata fetch (part_000 lines
114-133 feed lines 135-170). -/
def resolveFull (env : Env) (pkg : PackageInfo) : Except Err Resolved :=
  match env.fetchMeta (registryURL pkg.name) with
  | .error e => .error e
  | .ok meta => resolvePackage env.sv meta pkg

/-- Model of `strings.ReplaceAll(pkg.Name, "/", "_")`. -/
def safeName (name : String) : String :=
  String.mk (name.toList.map (fun c => if c = '/' then '_' else c))

/-- The function `getCachePath` (part_000 lines 173-180):
`filepath.Join(cacheDir, "npm-go", safe, version)`. -/
def getCachePath (env : Env) (pkg : PackageInfo) : Except Err Path :=
  match env.userCacheDir with
  | .error e => .error e
  | .ok root => .ok (cleanSegs root ("npm-go" :: safeName pkg.name :: splitSlash pkg.version))

/-- The function `downloadAndExtract` (part_000 lines 182-232): one archive fetch
(covering `http.Get`, the gzip reader and the tar decoding), then the
extraction loop. -/
def downloadAndExtract (env : Env) (url : String) (dest : Path) (disk : List Path) :
    Except Err Unit × List Path × List Ev :=
  match env.fetchArchive url with
  | .error e => (.error e, disk, [.archiveFetch url])
  | .ok entries =>
    match extractEntries env.fs dest entries disk with
    | (r, disk', tr) => (r, disk', .archiveFetch url :: tr)

/-- The cache-or-fetch decision inlined in `Install` (part_000 lines
87-92): when the cache path exists, nothing happens; otherwise the
archive is downloaded and extracted. -/
def ensureCached (env : Env) (tarball : String) (cachePath : Path) (st : St) :
    Except Err Unit × St × List Ev :=
  if cachePath ∈ st.disk then (.ok (), st, [])
  else
    match downloadAndExtract env tarball cachePath st.disk with
    | (r, disk', tr) => (r, { st with disk := disk' }, tr)

/-! ## Linking and the install orchestrator (`Install`, part_000 lines 68-112) -/

/-- Model of `filepath.Join("node_modules", pkg.Name)`. -/
def linkPathOf (name : String) : Path :=
  cleanSegs ["node_modules"] (splitSlash name)

/-- Effect of `os.RemoveAll p`: the entry at `p` and everything below it
is gone, from the disk set and from the link set. -/
def removeAllD (st : St) (p : Path) : St :=
  { st with
    disk := st.disk.filter (fun q => ¬ p.isPrefixOf q)
    links := st.links.filter (fun q => ¬ p.isPrefixOf q.1) }

/-- The link step of `Install` (part_000 lines 94-101): `os.RemoveAll`
with the error ignored, `os.MkdirAll` on the parent of the link
location, then `os.Symlink cachePath linkPath` (which fails when an
entry already exists at the link location). -/
def linkStep (env : Env) (name : String) (cachePath : Path) (st : St) :
    Except Err Unit × St × List Ev :=
  let linkPath := linkPathOf name
  let st1 := if env.fs.removeAllFails linkPath then st else removeAllD st linkPath
  let parent := linkPath.dropLast
  if env.fs.mkdirFails parent then
    (.error (.wrap ("create parent dir for " ++ pathStr linkPath) (.fsMkdir parent)), st1, [])
  else
    let disk2 := mkdirAllD st1.disk parent
    if env.fs.symlinkFails linkPath ∨ (∃ q ∈ st1.links, q.1 = linkPath) ∨ linkPath ∈ disk2 then
      (.error (.wrap ("symlink " ++ pathStr cachePath ++ " -> " ++ pathStr linkPath)
        (.fsSymlink linkPath)), ⟨st1.installed, disk2, st1.links⟩, [])
    else (.ok (), ⟨st1.installed, disk2, (linkPath, cachePath) :: st1.links⟩,
      [.link linkPath cachePath])

/-- The dependency loop of `Install` (part_000 lines 105-109), over an
arbitrary single-step install function: sequential, first failure wraps
the dependency's specifier context and aborts the remaining siblings. -/
def installDepsF (instF : PackageInfo → St → Except Err Unit × St × List Ev) :
    List (String × String) → St → Except Err Unit × St × List Ev
  | [], st => (.ok (), st, [])
  | (dep, depVer) :: rest, st =>
    match instF ⟨dep, depVer⟩ st with
    | (.error e, st1, tr) => (.error (.wrap ("install dep " ++ dep ++ "@" ++ depVer) e), st1, tr)
    | (.ok _, st1, tr) =>
      match installDepsF instF rest st1 with
      | (r, st2, tr') => (r, st2, tr ++ tr')

/-- The function `Install` (part_000 lines 68-112), fuel-indexed: memo check on
`name ++ "@" ++ selector`, eager marking, resolve, cache-or-fetch, link,
then recursion into the dependencies. -/
def Install (env : Env) : Nat → PackageInfo → St → Except Err Unit × St × List Ev
  | 0, _, st => (.error .outOfFuel, st, [])
  | fuel + 1, pkg, st =>
    let key := pkg.name ++ "@" ++ pkg.version
    if key ∈ st.installed then (.ok (), st, [])
    else
      let st0 : St := { st with installed := key :: st.installed }
      match resolveFull env pkg with
      | .error e =>
        (.error (.wrap ("resolve " ++ key) e), st0, [.metadataFetch (registryURL pkg.name)])
      | .ok res =>
        match getCachePath env ⟨pkg.name, res.version⟩ with
        | .error e =>
          (.error (.wrap ("get cache path for " ++ key) e), st0,
            [.metadataFetch (registryURL pkg.name)])
        | .ok cachePath =>
          match ensureCached env res.tarball cachePath st0 with
          | (.error e, st1, tr1) =>
            (.error (.wrap ("download and extract " ++ key) e), st1,
              .metadataFetch (registryURL pkg.name) :: tr1)
          | (.ok _, st1, tr1) =>
            match linkStep env pkg.name cachePath st1 with
            | (.error e, st2, tr2) =>
              (.error e, st2, .metadataFetch (registryURL pkg.name) :: (tr1 ++ tr2))
            | (.ok _, st2, tr2) =>
              match installDepsF (fun p s => Install env fuel p s) res.deps st2 with
              | (r, st3, tr3) =>
                (r, st3, .metadataFetch (registryURL pkg.name) :: (tr1 ++ tr2 ++ tr3))

/-- The dependency loop with the single-step function fixed to
`Install` at the given fuel. -/
def installDeps (env : Env) (fuel : Nat) :
    List (String × String) → St → Except Err Unit × St × List Ev :=
  installDepsF (fun p s => Install env fuel p s)

/-! ## The CLI loop (`main.go`) -/

/-- Lines `main` prints to standard output (the per-package progress
lines inside `Install` are not tracked). -/
inductive OutLine where
  /-- The line `"Usage: goose <package[@version]> [...]"`. -/
  | usage
  /-- The line `"Error parsing package '%s': %v"`. -/
  | parseError (arg : String) (e : Err)
  /-- The line `"Error installing package '%s': %v"`. -/
  | installError (name : String) (e : Err)
  /-- The line `"All packages installed."`. -/
  | done
deriving DecidableEq

/-- Is the line a per-argument failure report? -/
def isErrLine : OutLine → Bool
  | .parseError _ _ => true
  | .installError _ _ => true
  | _ => false

/-- The argument loop of `main` (main.go lines 16-27).  Besides the
printed lines and the final state it returns the list of arguments that
were attempted, in order. -/
def mainGo (env : Env) (fuel : Nat) :
    List String → St → List OutLine × St × List String
  | [], st => ([], st, [])
  | arg :: rest, st =>
    match Parse arg with
    | .error e =>
      match mainGo env fuel rest st with
      | (outs, st', att) => (.parseError arg e :: outs, st', arg :: att)
    | .ok pkg =>
      match Install env fuel pkg st with
      | (.error e, st1, _) =>
        match mainGo env fuel rest st1 with
        | (outs, st', att) => (.installError pkg.name e :: outs, st', arg :: att)
      | (.ok _, st1, _) =>
        match mainGo env fuel rest st1 with
        | (outs, st', att) => (outs, st', arg :: att)

/-- The function `main` (main.go lines 10-30): usage line when no arguments are
given, otherwise the argument loop followed by the completion line.  The
third component is the process exit status (Go's `main` returns normally
on every path, so it is always `0`); the fourth is the attempted
arguments. -/
def mainRun (env : Env) (fuel : Nat) (args : List String) (st : St) :
    List OutLine × St × Nat × List String :=
  if args.isEmpty then ([.usage], st, 0, [])
  else
    match mainGo env fuel args st with
    | (outs, st', att) => (outs ++ [.done], st', 0, att)

/-! ## A concrete semver instance and concrete environments

The Masterminds library itself is outside this repository; the claims
about `resolvePackage` are proved for every implementation of the
`Semver` interface whose ordering is a strict order.  The small instance
below (plain `major.minor.patch` versions, exact and caret constraints)
only serves to evaluate the definitions on closed inputs. -/

/-- A version as a `(major, minor, patch)` triple. -/
abbrev V3 := Nat × Nat × Nat

/-- Decimal digits to a number, `none` on empty or non-digit input. -/
def digitsToNat (s : List Char) : Option Nat :=
  if s = [] ∨ ¬ s.all Char.isDigit then none
  else some (s.foldl (fun n c => n * 10 + (c.toNat - 48)) 0)

/-- Parse `"major.minor.patch"`. -/
def parseV3 (s : List Char) : Option V3 :=
  match splitOnCharL '.' s with
  | [a, b, c] =>
    match digitsToNat a, digitsToNat b, digitsToNat c with
    | some x, some y, some z => some (x, y, z)
    | _, _, _ => none
  | _ => none

/-- Strict lexicographic comparison on triples. -/
def gtV3 (a b : V3) : Bool :=
  decide (b.1 < a.1) ||
    (decide (a.1 = b.1) &&
      (decide (b.2.1 < a.2.1) || (decide (a.2.1 = b.2.1) && decide (b.2.2 < a.2.2))))

/-- Constraints of the concrete instance: an exact version or a caret
range. -/
inductive ToyConstraint where
  | exact (v : V3)
  | caret (v : V3)
deriving DecidableEq

/-- Parse `"x.y.z"` or `"^x.y.z"`. -/
def parseToyConstraint (s : List Char) : Option ToyConstraint :=
  match s with
  | '^' :: rest => (parseV3 rest).map .caret
  | _ => (parseV3 s).map .exact

/-- Constraint satisfaction of the concrete instance. -/
def toyCheck : ToyConstraint → V3 → Bool
  | .exact v, w => decide (v = w)
  | .caret v, w => decide (v.1 = w.1) && (decide (v = w) || gtV3 w v)

/-- The concrete `Semver` instance. -/
@[reducible] def toySemver : Semver where
  Ver := V3
  Constraint := ToyConstraint
  newVersion s := parseV3 s.toList
  newConstraint s := parseToyConstraint s.toList
  check := toyCheck
  gt := gtV3

/-- Fault-free filesystem oracles. -/
def fsOk : FS where
  mkdirFails _ := false
  createFails _ := false
  copyFails _ := false
  symlinkFails _ := false
  removeAllFails _ := false

/-- A fixed metadata document: dist-tag `latest ↦ 1.0.0` and a single
version `1.0.0` with no dependencies. -/
def metaW : PackageMeta where
  distTags := [("latest", "1.0.0")]
  versions := [("1.0.0", ⟨"https://tarballs.test/a.tgz", []⟩)]

/-- A concrete fault-free environment: every metadata request answers
`metaW`, every archive holds a single `package/index.js` file. -/
def envW : Env where
  sv := toySemver
  fetchMeta _ := .ok metaW
  fetchArchive _ := .ok [⟨"package/index.js", false⟩]
  userCacheDir := .ok ["home", "user", ".cache"]
  fs := fsOk

/-! ## Properties of the specifier parser -/

theorem breakAt_split (n v : List Char) (h : '@' ∉ n) :
    breakAt (n ++ '@' :: v) = (n, some v) := by
  induction n with
  | nil => simp [breakAt]
  | cons c rest ih =>
    have hc : c ≠ '@' := fun hc => h (hc ▸ List.mem_cons_self c rest)
    have hr : '@' ∉ rest := fun hr => h (List.mem_cons_of_mem c hr)
    simp [breakAt, hc, ih hr]

theorem lastIdxAt_none (v : List Char) (h : '@' ∉ v) : lastIdxAt v = none := by
  induction v with
  | nil => rfl
  | cons c rest ih =>
    have hc : c ≠ '@' := fun hc => h (hc ▸ List.mem_cons_self c rest)
    have hr : '@' ∉ rest := fun hr => h (List.mem_cons_of_mem c hr)
    simp [lastIdxAt, hc, ih hr]

theorem lastIdxAt_split (n v : List Char) (h : '@' ∉ v) :
    lastIdxAt (n ++ '@' :: v) = some n.length := by
  induction n with
  | nil => simp [lastIdxAt, lastIdxAt_none v h]
  | cons c rest ih => simp [lastIdxAt, ih]

theorem toList_ne_nil (arg : String) (h : arg ≠ "") : arg.toList ≠ [] := by
  intro hl
  apply h
  cases arg with
  | mk data =>
    have : data = [] := hl
    rw [this]

theorem parse_unscoped_case (arg : String) (n v : List Char)
    (hn : arg.toList = n ++ '@' :: v) (hfa : '@' ∉ n)
    (hhead : arg.toList.head? ≠ some '@') :
    n ≠ [] ∧ Parse arg = .ok ⟨String.mk n, String.mk v⟩ := by
  have hne : n ≠ [] := by
    intro h0
    subst h0
    rw [hn] at hhead
    simp at hhead
  refine ⟨hne, ?_⟩
  have hmem : '@' ∈ arg.toList := by rw [hn]; simp
  have hnil : arg.toList ≠ [] := by rw [hn]; simp
  simp only [Parse]
  rw [if_neg hnil, if_pos ⟨hmem, hhead⟩, hn, breakAt_split n v hfa]
  simp [hne]

theorem parse_scoped_version_case (arg : String) (n v : List Char)
    (hn : arg.toList = n ++ '@' :: v) (hla : '@' ∉ v)
    (hhead : arg.toList.head? = some '@') (hne : n ≠ []) :
    Parse arg = .ok ⟨String.mk n, String.mk v⟩ := by
  have hnil : arg.toList ≠ [] := by rw [hn]; simp
  have htake : (n ++ '@' :: v).take n.length = n := List.take_left n ('@' :: v)
  have hdrop : (n ++ '@' :: v).drop (n.length + 1) = v := by
    have h1 : n ++ '@' :: v = (n ++ ['@']) ++ v := by simp
    have h2 : (n ++ ['@']).length = n.length + 1 := by simp
    rw [h1, ← h2, List.drop_left]
  simp only [Parse]
  rw [if_neg hnil, if_neg (fun h => h.2 hhead), if_pos hhead, hn,
    lastIdxAt_split n v hla]
  simp only [Option.getD_some]
  rw [if_pos (List.length_pos.mpr hne), htake, if_neg hne, hdrop]

theorem parse_scoped_plain_case (arg : String) (rest : List Char)
    (hn : arg.toList = '@' :: rest) (hno : '@' ∉ rest) :
    ('/' ∈ arg.toList → Parse arg = .ok ⟨arg, "latest"⟩) ∧
    ('/' ∉ arg.toList → Parse arg = .error .invalidScopedName) := by
  have hnil : arg.toList ≠ [] := by rw [hn]; simp
  have hhead : arg.toList.head? = some '@' := by rw [hn]; rfl
  have hlast : lastIdxAt arg.toList = some 0 := by
    rw [hn]
    simp [lastIdxAt, lastIdxAt_none rest hno]
  constructor
  · intro hmem
    have hcnt : ¬ arg.toList.count '/' < 1 := by
      have : arg.toList.count '/' ≠ 0 := fun h0 => (List.count_eq_zero.mp h0) hmem
      omega
    simp only [Parse]
    rw [if_neg hnil, if_neg (fun h => h.2 hhead), if_pos hhead, hlast]
    simp only [Option.getD_some]
    rw [if_neg (by omega : ¬ 0 < 0), if_neg hcnt]
  · intro hmem
    have hcnt : arg.toList.count '/' < 1 := by
      have : arg.toList.count '/' = 0 := List.count_eq_zero.mpr hmem
      omega
    simp only [Parse]
    rw [if_neg hnil, if_neg (fun h => h.2 hhead), if_pos hhead, hlast]
    simp only [Option.getD_some]
    rw [if_neg (by omega : ¬ 0 < 0), if_pos hcnt]

theorem parse_plain_case (arg : String) (hne : arg ≠ "") (hno : '@' ∉ arg.toList) :
    (' ' ∈ arg.toList → Parse arg = .error .containsSpaces) ∧
    (' ' ∉ arg.toList → Parse arg = .ok ⟨arg, "latest"⟩) := by
  have hnil : arg.toList ≠ [] := toList_ne_nil arg hne
  have hhead : arg.toList.head? ≠ some '@' := by
    intro h
    apply hno
    cases hs : arg.toList with
    | nil => rw [hs] at h; simp at h
    | cons c t =>
      rw [hs] at h
      simp only [List.head?_cons, Option.some.injEq] at h
      rw [h]
      exact List.mem_cons_self '@' t
  constructor
  · intro hmem
    simp only [Parse]
    rw [if_neg hnil, if_neg (fun h => hno h.1), if_neg hhead, if_pos hmem]
  · intro hmem
    simp only [Parse]
    rw [if_neg hnil, if_neg (fun h => hno h.1), if_neg hhead, if_neg hmem]

/-- C2: `Parse` behaves per the case analysis of the spec: `""` fails
`EmptyInput`; an unscoped string containing `'@'` splits at the first
`'@'` (its name part is provably nonempty, so the `EmptyName` case is
vacuous); a scoped string whose last `'@'` is non-leading splits at that
last `'@'`; a scoped string with only the leading `'@'` needs a `'/'`
and selects `"latest"`; an unscoped string without `'@'` rejects spaces
and selects `"latest"`; and the seven concrete examples of the spec
evaluate as stated.  `Parse` is a plain function, hence deterministic
and pure. -/
theorem parse_spec :
    (Parse "" = .error .emptyInput)
    ∧ (∀ arg : String, ∀ n v : List Char,
        arg.toList = n ++ '@' :: v → '@' ∉ n → arg.toList.head? ≠ some '@' →
          n ≠ [] ∧ Parse arg = .ok ⟨String.mk n, String.mk v⟩)
    ∧ (∀ arg : String, ∀ n v : List Char,
        arg.toList = n ++ '@' :: v → '@' ∉ n → arg.toList.head? ≠ some '@' → n = [] →
          Parse arg = .error .emptyNameBeforeAt)
    ∧ (∀ arg : String, ∀ n v : List Char,
        arg.toList = n ++ '@' :: v → '@' ∉ v → arg.toList.head? = some '@' → n ≠ [] →
          Parse arg = .ok ⟨String.mk n, String.mk v⟩)
    ∧ (∀ arg : String, ∀ rest : List Char,
        arg.toList = '@' :: rest → '@' ∉ rest →
          ('/' ∈ arg.toList → Parse arg = .ok ⟨arg, "latest"⟩)
          ∧ ('/' ∉ arg.toList → Parse arg = .error .invalidScopedName))
    ∧ (∀ arg : String, arg ≠ "" → '@' ∉ arg.toList →
        (' ' ∈ arg.toList → Parse arg = .error .containsSpaces)
        ∧ (' ' ∉ arg.toList → Parse arg = .ok ⟨arg, "latest"⟩))
    ∧ Parse "foo" = .ok ⟨"foo", "latest"⟩
    ∧ Parse "foo@1.2.3" = .ok ⟨"foo", "1.2.3"⟩
    ∧ Parse "@scope/pkg" = .ok ⟨"@scope/pkg", "latest"⟩
    ∧ Parse "@scope/pkg@2.0.0" = .ok ⟨"@scope/pkg", "2.0.0"⟩
    ∧ Parse "@scope" = .error .invalidScopedName
    ∧ Parse "foo bar" = .error .containsSpaces := by
  refine ⟨by decide, ?_, ?_, ?_, ?_, ?_, by decide, by decide, by decide, by decide,
    by decide, by decide⟩
  · exact fun arg n v hn hfa hhead => parse_unscoped_case arg n v hn hfa hhead
  · intro arg n v hn hfa hhead hnil
    exact absurd hnil (parse_unscoped_case arg n v hn hfa hhead).1
  · exact fun arg n v hn hla hhead hne => parse_scoped_version_case arg n v hn hla hhead hne
  · exact fun arg rest hn hno => parse_scoped_plain_case arg rest hn hno
  · exact fun arg hne hno => parse_plain_case arg hne hno

/-- Closed instance of `parse_spec`: the unscoped-split case applied at
`"a@b"`, with its hypotheses discharged by computation. -/
theorem parse_spec_witness : Parse "a@b" = .ok ⟨"a", "b"⟩ :=
  (parse_spec.2.1 "a@b" ['a'] ['b'] (by decide) (by decide) (by decide)).2

/-- C10: in the scoped branch, when the last `'@'` sits at a non-leading
index the name part before it is nonempty, so `Parse` can never return
the `"invalid scoped package"` error (`Err.invalidScopedPackage`): that
branch is unreachable for every input. -/
theorem parse_invalidScopedPackage_unreachable :
    (∀ s : List Char, s.head? = some '@' →
      ∀ i, lastIdxAt s = some i → 0 < i → s.take i ≠ [])
    ∧ (∀ arg : String, Parse arg ≠ .error .invalidScopedPackage) := by
  constructor
  · intro s hh i _ hi hemp
    rcases List.take_eq_nil_iff.mp hemp with h0 | h0
    · omega
    · subst h0
      simp at hh
  · intro arg h
    simp only [Parse] at h
    by_cases h1 : arg.toList = []
    · rw [if_pos h1] at h
      exact absurd h (by decide)
    rw [if_neg h1] at h
    by_cases h2 : '@' ∈ arg.toList ∧ arg.toList.head? ≠ some '@'
    · rw [if_pos h2] at h
      rcases hb : breakAt arg.toList with ⟨before, r⟩
      rw [hb] at h
      cases r with
      | none => simp at h
      | some after =>
        by_cases h3 : before = []
        · simp [h3] at h
        · simp [h3] at h
    rw [if_neg h2] at h
    by_cases h4 : arg.toList.head? = some '@'
    · rw [if_pos h4] at h
      by_cases h5 : 0 < (lastIdxAt arg.toList).getD 0
      · rw [if_pos h5] at h
        have hne : arg.toList.take ((lastIdxAt arg.toList).getD 0) ≠ [] := by
          intro hemp
          rcases List.take_eq_nil_iff.mp hemp with h0 | h0
          · omega
          · exact h1 h0
        rw [if_neg hne] at h
        exact absurd h (by simp)
      · rw [if_neg h5] at h
        by_cases h6 : arg.toList.count '/' < 1
        · rw [if_pos h6] at h
          exact absurd h (by decide)
        · rw [if_neg h6] at h
          exact absurd h (by simp)
    rw [if_neg h4] at h
    by_cases h7 : ' ' ∈ arg.toList
    · rw [if_pos h7] at h
      exact absurd h (by decide)
    · rw [if_neg h7] at h
      exact absurd h (by simp)

/-- Closed instance of `parse_invalidScopedPackage_unreachable` at the
concrete scoped input `"@a/b@1"`. -/
theorem parse_invalidScopedPackage_unreachable_witness :
    Parse "@a/b@1" ≠ .error .invalidScopedPackage :=
  parse_invalidScopedPackage_unreachable.2 "@a/b@1"

/-! ## Properties of the registry resolver -/

theorem lookup_eq_of_mem_nodup {α : Type} (l : List (String × α)) (k : String) (v : α)
    (hmem : (k, v) ∈ l) (hnd : (l.map Prod.fst).Nodup) : lookup l k = some v := by
  induction l with
  | nil => simp at hmem
  | cons p rest ih =>
    rcases p with ⟨k', v'⟩
    simp only [List.map_cons, List.nodup_cons] at hnd
    rcases List.mem_cons.mp hmem with h | h
    · rcases Prod.mk.injEq .. ▸ h with ⟨hk, hv⟩
      simp [lookup, hk.symm, hv]
    · have hk : k' ≠ k := by
        intro he
        exact hnd.1 (he ▸ List.mem_map.mpr ⟨(k, v), h, rfl⟩)
      simp [lookup, hk, ih h hnd.2]

theorem scanMax_isSome (sv : Semver) (c : sv.Constraint) :
    ∀ (l : List (String × VersionInfo)) (a : String) (oa : Option sv.Ver),
      oa.isSome → ((scanMax sv c l (a, oa)).2).isSome := by
  intro l
  induction l with
  | nil => intro a oa h; simpa [scanMax] using h
  | cons p rest ih =>
    rcases p with ⟨v, i⟩
    intro a oa h
    simp only [scanMax]
    cases hv : sv.newVersion v with
    | none => dsimp only; exact ih a oa h
    | some ver =>
      dsimp only
      by_cases hc : sv.check c ver = true
      · rw [if_pos hc]
        cases oa with
        | none => dsimp only; exact ih v (some ver) rfl
        | some m =>
          dsimp only
          by_cases hg : sv.gt ver m = true
          · rw [if_pos hg]; exact ih v (some ver) rfl
          · rw [if_neg hg]; exact ih a (some m) rfl
      · rw [if_neg hc]; exact ih a oa h

theorem scanMax_sound (sv : Semver) (c : sv.Constraint) :
    ∀ (l : List (String × VersionInfo)) (a : String) (oa : Option sv.Ver)
      (mv : String) (om : Option sv.Ver),
      scanMax sv c l (a, oa) = (mv, om) →
      (mv = a ∧ om = oa) ∨
        (∃ i mver, (mv, i) ∈ l ∧ sv.newVersion mv = some mver ∧ sv.check c mver = true
          ∧ om = some mver) := by
  intro l
  induction l with
  | nil =>
    intro a oa mv om h
    simp only [scanMax] at h
    injection h with h1 h2
    exact Or.inl ⟨h1.symm, h2.symm⟩
  | cons p rest ih =>
    rcases p with ⟨v, i⟩
    intro a oa mv om h
    simp only [scanMax] at h
    have lift : ∀ ver : sv.Ver, sv.newVersion v = some ver → sv.check c ver = true →
        scanMax sv c rest (v, some ver) = (mv, om) →
        (∃ j mver, (mv, j) ∈ (v, i) :: rest ∧ sv.newVersion mv = some mver
          ∧ sv.check c mver = true ∧ om = some mver) := by
      intro ver hver hchk hrec
      rcases ih v (some ver) mv om hrec with ⟨he, ho⟩ | ⟨j, mver, hmem, h1, h2, h3⟩
      · exact ⟨i, ver, by rw [he]; exact List.mem_cons_self _ _, he ▸ hver, hchk, ho⟩
      · exact ⟨j, mver, List.mem_cons_of_mem _ hmem, h1, h2, h3⟩
    have keep : scanMax sv c rest (a, oa) = (mv, om) →
        (mv = a ∧ om = oa) ∨
          (∃ j mver, (mv, j) ∈ (v, i) :: rest ∧ sv.newVersion mv = some mver
            ∧ sv.check c mver = true ∧ om = some mver) := by
      intro hrec
      rcases ih a oa mv om hrec with h1 | ⟨j, mver, hmem, hh⟩
      · exact Or.inl h1
      · exact Or.inr ⟨j, mver, List.mem_cons_of_mem _ hmem, hh⟩
    cases hv : sv.newVersion v with
    | none =>
      rw [hv] at h
      dsimp only at h
      exact keep h
    | some ver =>
      rw [hv] at h
      dsimp only at h
      by_cases hc : sv.check c ver = true
      · rw [if_pos hc] at h
        cases oa with
        | none =>
          dsimp only at h
          exact Or.inr (lift ver hv hc h)
        | some m =>
          dsimp only at h
          by_cases hg : sv.gt ver m = true
          · rw [if_pos hg] at h
            exact Or.inr (lift ver hv hc h)
          · rw [if_neg hg] at h
            exact keep h
      · rw [if_neg hc] at h
        exact keep h

theorem scanMax_max (sv : Semver) (c : sv.Constraint)
    (hIrr : ∀ a : sv.Ver, sv.gt a a = false)
    (hTrans : ∀ a b d : sv.Ver, sv.gt a b = true → sv.gt b d = true → sv.gt a d = true) :
    ∀ (l : List (String × VersionInfo)) (a : String) (oa : Option sv.Ver)
      (mv : String) (m : sv.Ver),
      scanMax sv c l (a, oa) = (mv, some m) →
      ((∀ w (i : VersionInfo) (wv : sv.Ver), (w, i) ∈ l → sv.newVersion w = some wv →
          sv.check c wv = true → sv.gt wv m = false)
        ∧ (∀ m₀ : sv.Ver, oa = some m₀ → (m = m₀ ∨ sv.gt m m₀ = true))) := by
  have dom : ∀ ver m : sv.Ver, (m = ver ∨ sv.gt m ver = true) → sv.gt ver m = false := by
    intro ver m hd
    cases hg : sv.gt ver m with
    | false => rfl
    | true =>
      exfalso
      rcases hd with he | hgt
      · rw [he] at hg
        rw [hIrr ver] at hg
        cases hg
      · have hvv := hTrans ver m ver hg hgt
        rw [hIrr ver] at hvv
        cases hvv
  intro l
  induction l with
  | nil =>
    intro a oa mv m h
    simp only [scanMax] at h
    injection h with h1 h2
    refine ⟨by intro w i wv hmem; simp at hmem, ?_⟩
    intro m₀ h₀
    rw [h₀] at h2
    injection h2.symm with h3
    exact Or.inl h3
  | cons p rest ih =>
    rcases p with ⟨v, i⟩
    intro a oa mv m h
    simp only [scanMax] at h
    cases hv : sv.newVersion v with
    | none =>
      rw [hv] at h
      dsimp only at h
      refine ⟨?_, (ih a oa mv m h).2⟩
      intro w j wv hmem hw hc'
      rcases List.mem_cons.mp hmem with he | hmem'
      · injection he with he1 he2
        rw [he1, hv] at hw
        cases hw
      · exact (ih a oa mv m h).1 w j wv hmem' hw hc'
    | some ver =>
      rw [hv] at h
      dsimp only at h
      by_cases hc : sv.check c ver = true
      · rw [if_pos hc] at h
        cases oa with
        | none =>
          dsimp only at h
          refine ⟨?_, by intro m₀ h₀; cases h₀⟩
          intro w j wv hmem hw hc'
          rcases List.mem_cons.mp hmem with he | hmem'
          · injection he with he1 he2
            rw [he1, hv] at hw
            injection hw with hw'
            rw [← hw']
            exact dom ver m ((ih v (some ver) mv m h).2 ver rfl)
          · exact (ih v (some ver) mv m h).1 w j wv hmem' hw hc'
        | some m₀ =>
          dsimp only at h
          by_cases hg : sv.gt ver m₀ = true
          · rw [if_pos hg] at h
            constructor
            · intro w j wv hmem hw hc'
              rcases List.mem_cons.mp hmem with he | hmem'
              · injection he with he1 he2
                rw [he1, hv] at hw
                injection hw with hw'
                rw [← hw']
                exact dom ver m ((ih v (some ver) mv m h).2 ver rfl)
              · exact (ih v (some ver) mv m h).1 w j wv hmem' hw hc'
            · intro m₀' h₀
              injection h₀ with h₀'
              rw [← h₀']
              rcases (ih v (some ver) mv m h).2 ver rfl with he | hgt
              · exact Or.inr (he ▸ hg)
              · exact Or.inr (hTrans m ver m₀ hgt hg)
          · rw [if_neg hg] at h
            constructor
            · intro w j wv hmem hw hc'
              rcases List.mem_cons.mp hmem with he | hmem'
              · injection he with he1 he2
                rw [he1, hv] at hw
                injection hw with hw'
                rw [← hw']
                cases hvm : sv.gt ver m with
                | false => rfl
                | true =>
                  exfalso
                  rcases (ih a (some m₀) mv m h).2 m₀ rfl with he' | hgt'
                  · rw [he'] at hvm
                    rw [hvm] at hg
                    exact hg rfl
                  · have := hTrans ver m m₀ hvm hgt'
                    rw [this] at hg
                    exact hg rfl
              · exact (ih a (some m₀) mv m h).1 w j wv hmem' hw hc'
            · exact (ih a (some m₀) mv m h).2
      · rw [if_neg hc] at h
        refine ⟨?_, (ih a oa mv m h).2⟩
        intro w j wv hmem hw hc'
        rcases List.mem_cons.mp hmem with he | hmem'
        · exfalso
          injection he with he1 he2
          rw [he1, hv] at hw
          injection hw with hw'
          rw [← hw'] at hc'
          rw [hc'] at hc
          exact hc rfl
        · exact (ih a oa mv m h).1 w j wv hmem' hw hc'

theorem scanMax_unchanged (sv : Semver) (c : sv.Constraint) :
    ∀ (l : List (String × VersionInfo)) (acc : String × Option sv.Ver),
      (∀ w (i : VersionInfo) (wv : sv.Ver), (w, i) ∈ l → sv.newVersion w = some wv →
        sv.check c wv = false) →
      scanMax sv c l acc = acc := by
  intro l
  induction l with
  | nil => intro acc _; rfl
  | cons p rest ih =>
    rcases p with ⟨v, i⟩
    intro acc hall
    simp only [scanMax]
    cases hv : sv.newVersion v with
    | none =>
      dsimp only
      exact ih acc (fun w j wv hm => hall w j wv (List.mem_cons_of_mem _ hm))
    | some ver =>
      dsimp only
      rw [if_neg (by rw [hall v i ver (List.mem_cons_self _ _) hv]; simp)]
      exact ih acc (fun w j wv hm => hall w j wv (List.mem_cons_of_mem _ hm))

theorem scanMax_some_exists (sv : Semver) (c : sv.Constraint) :
    ∀ (l : List (String × VersionInfo)) (a : String) (oa : Option sv.Ver),
      (∃ (w : String) (i : VersionInfo) (wv : sv.Ver), (w, i) ∈ l ∧ sv.newVersion w = some wv
        ∧ sv.check c wv = true) →
      ((scanMax sv c l (a, oa)).2).isSome := by
  intro l
  induction l with
  | nil =>
    intro a oa hex
    rcases hex with ⟨w, i, wv, hm, _⟩
    simp at hm
  | cons p rest ih =>
    rcases p with ⟨v, j⟩
    intro a oa hex
    rcases hex with ⟨w, i, wv, hm, hw, hc'⟩
    simp only [scanMax]
    rcases List.mem_cons.mp hm with he | hmem
    · have hv : sv.newVersion v = some wv := by
        injection he with he1 he2
        rw [← he1]
        exact hw
      rw [hv]
      dsimp only
      rw [if_pos hc']
      cases oa with
      | none => dsimp only; exact scanMax_isSome sv c rest v (some wv) rfl
      | some m =>
        dsimp only
        by_cases hg : sv.gt wv m = true
        · rw [if_pos hg]; exact scanMax_isSome sv c rest v (some wv) rfl
        · rw [if_neg hg]; exact scanMax_isSome sv c rest a (some m) rfl
    · cases hv : sv.newVersion v with
      | none => dsimp only; exact ih a oa ⟨w, i, wv, hmem, hw, hc'⟩
      | some ver =>
        dsimp only
        by_cases hcv : sv.check c ver = true
        · rw [if_pos hcv]
          cases oa with
          | none => dsimp only; exact scanMax_isSome sv c rest v (some ver) rfl
          | some m =>
            dsimp only
            by_cases hg : sv.gt ver m = true
            · rw [if_pos hg]; exact scanMax_isSome sv c rest v (some ver) rfl
            · rw [if_neg hg]; exact scanMax_isSome sv c rest a (some m) rfl
        · rw [if_neg hcv]
          exact ih a oa ⟨w, i, wv, hmem, hw, hc'⟩

theorem scanMax_empty_iff (sv : Semver) (c : sv.Constraint) (hE : sv.newVersion "" = none) :
    ∀ (l : List (String × VersionInfo)) (a : String) (oa : Option sv.Ver),
      (a = "" ↔ oa = none) →
      ((scanMax sv c l (a, oa)).1 = "" ↔ (scanMax sv c l (a, oa)).2 = none) := by
  intro l
  induction l with
  | nil => intro a oa h; simpa [scanMax] using h
  | cons p rest ih =>
    rcases p with ⟨v, i⟩
    intro a oa h
    simp only [scanMax]
    cases hv : sv.newVersion v with
    | none => dsimp only; exact ih a oa h
    | some ver =>
      dsimp only
      have hvne : ¬ v = "" := by
        intro he
        rw [he, hE] at hv
        cases hv
      by_cases hc : sv.check c ver = true
      · rw [if_pos hc]
        cases oa with
        | none => dsimp only; exact ih v (some ver) (by simp [hvne])
        | some m =>
          dsimp only
          by_cases hg : sv.gt ver m = true
          · rw [if_pos hg]; exact ih v (some ver) (by simp [hvne])
          · rw [if_neg hg]
            exact ih a (some m) (by simpa using h)
      · rw [if_neg hc]; exact ih a oa h

/-- C1: for every specifier and metadata document, resolution proceeds
in order: the selector is substituted through the dist-tag mapping when
it matches a tag; an exact match of the (possibly substituted) selector
among the `versions` keys is returned immediately with its archive URL
and dependencies; otherwise the selector must parse as a range
constraint (else `InvalidConstraint`), the `versions` keys are scanned
with unparseable keys silently skipped, the maximum satisfying key (by
the library's strict ordering) is returned, and `NoMatchingVersion` is
the result when no key satisfies the constraint.  Stated for every
`Semver` implementation whose ordering is irreflexive and transitive,
which rejects the empty string, and for documents with distinct version
keys. -/
theorem resolvePackage_spec (sv : Semver) (meta : PackageMeta) (pkg : PackageInfo)
    (hIrr : ∀ a : sv.Ver, sv.gt a a = false)
    (hTrans : ∀ a b d : sv.Ver, sv.gt a b = true → sv.gt b d = true → sv.gt a d = true)
    (hE : sv.newVersion "" = none)
    (hND : (meta.versions.map Prod.fst).Nodup) :
    (∀ vinfo : VersionInfo,
      lookup meta.versions ((lookup meta.distTags pkg.version).getD pkg.version) = some vinfo →
      resolvePackage sv meta pkg =
        .ok ⟨(lookup meta.distTags pkg.version).getD pkg.version, vinfo.tarball,
          vinfo.dependencies⟩)
    ∧ (lookup meta.versions ((lookup meta.distTags pkg.version).getD pkg.version) = none →
      sv.newConstraint ((lookup meta.distTags pkg.version).getD pkg.version) = none →
      resolvePackage sv meta pkg =
        .error (.invalidConstraint ((lookup meta.distTags pkg.version).getD pkg.version)))
    ∧ (∀ c : sv.Constraint,
      lookup meta.versions ((lookup meta.distTags pkg.version).getD pkg.version) = none →
      sv.newConstraint ((lookup meta.distTags pkg.version).getD pkg.version) = some c →
      ((∃ p ∈ meta.versions, ∃ ver : sv.Ver,
          sv.newVersion p.1 = some ver ∧ sv.check c ver = true) →
        ∃ (mv : String) (mver : sv.Ver) (vinfo : VersionInfo),
          (mv, vinfo) ∈ meta.versions ∧ sv.newVersion mv = some mver
          ∧ sv.check c mver = true
          ∧ resolvePackage sv meta pkg = .ok ⟨mv, vinfo.tarball, vinfo.dependencies⟩
          ∧ ∀ p ∈ meta.versions, ∀ wv : sv.Ver, sv.newVersion p.1 = some wv →
              sv.check c wv = true → sv.gt wv mver = false)
      ∧ ((∀ p ∈ meta.versions, ∀ ver : sv.Ver,
            sv.newVersion p.1 = some ver → sv.check c ver = false) →
        resolvePackage sv meta pkg = .error (.noMatchingVersion pkg.name pkg.version))) := by
  have hsub : (match lookup meta.distTags pkg.version with
      | some t => t
      | none => pkg.version) = (lookup meta.distTags pkg.version).getD pkg.version := by
    cases lookup meta.distTags pkg.version <;> rfl
  refine ⟨?_, ?_, ?_⟩
  · intro vinfo hlk
    simp only [resolvePackage, hsub, hlk]
  · intro hlk hc
    simp only [resolvePackage, hsub, hlk, hc]
  · intro c hlk hc
    constructor
    · intro hex
      rcases hex with ⟨p, hpmem, ver, hver, hchk⟩
      have hsome : ((scanMax sv c meta.versions ("", none)).2).isSome :=
        scanMax_some_exists sv c meta.versions "" none
          ⟨p.1, p.2, ver, by simpa using hpmem, hver, hchk⟩
      rcases hscan : scanMax sv c meta.versions ("", none) with ⟨mv, om⟩
      rw [hscan] at hsome
      dsimp only at hsome
      rcases Option.isSome_iff_exists.mp hsome with ⟨mver, hom⟩
      have hiff := scanMax_empty_iff sv c hE meta.versions "" none (by simp)
      rw [hscan] at hiff
      dsimp only at hiff
      have hmvne : ¬ mv = "" := by
        intro he
        have hno : om = none := hiff.mp he
        rw [hom] at hno
        cases hno
      rcases scanMax_sound sv c meta.versions "" none mv om hscan with
        ⟨he, _⟩ | ⟨i, mver', hmem, hpar, hchk', hom'⟩
      · exact absurd he hmvne
      have hmeq : mver' = mver := by
        rw [hom] at hom'
        injection hom' with hmm
        exact hmm.symm
      have hluk : lookup meta.versions mv = some i :=
        lookup_eq_of_mem_nodup meta.versions mv i hmem hND
      have hscan' : scanMax sv c meta.versions ("", none) = (mv, some mver) := by
        rw [hscan, hom]
      have hmax := scanMax_max sv c hIrr hTrans meta.versions "" none mv mver hscan'
      refine ⟨mv, mver, i, hmem, hmeq ▸ hpar, hmeq ▸ hchk', ?_, ?_⟩
      · simp only [resolvePackage, hsub, hlk, hc, hscan]
        rw [if_neg hmvne, hluk]
        rfl
      · intro q hq wv hparse hcheck
        exact hmax.1 q.1 q.2 wv (by simpa using hq) hparse hcheck
    · intro hall
      have hunch : scanMax sv c meta.versions ("", none) = ("", none) :=
        scanMax_unchanged sv c meta.versions ("", none)
          (fun w j wv hm hw => hall (w, j) hm wv hw)
      simp only [resolvePackage, hsub, hlk, hc, hunch]
      simp

/-! Concrete instantiation for `resolvePackage_spec`. -/

theorem toySemver_gt_irrefl : ∀ a : toySemver.Ver, toySemver.gt a a = false := by
  intro a
  rcases a with ⟨x, y, z⟩
  simp [toySemver, gtV3]

theorem toySemver_gt_trans : ∀ a b d : toySemver.Ver,
    toySemver.gt a b = true → toySemver.gt b d = true → toySemver.gt a d = true := by
  intro a b d hab hbd
  rcases a with ⟨xa, ya, za⟩
  rcases b with ⟨xb, yb, zb⟩
  rcases d with ⟨xd, yd, zd⟩
  simp only [toySemver, gtV3, Bool.or_eq_true, Bool.and_eq_true, decide_eq_true_eq]
    at hab hbd ⊢
  omega

/-- Versions document used to instantiate the resolver theorem. -/
def metaC1 : PackageMeta :=
  ⟨[], [("1.0.0", ⟨"u1", []⟩), ("1.2.0", ⟨"u2", []⟩), ("2.0.0", ⟨"u3", []⟩)]⟩

/-- The parsed form of the range selector `"^1.0.0"` in the concrete
instance. -/
def cC1 : toySemver.Constraint := ToyConstraint.caret (1, 0, 0)

/-- Closed instance of `resolvePackage_spec`: resolving `p@^1.0.0`
against `metaC1` picks the maximum satisfying key. -/
theorem resolvePackage_spec_witness :
    ∃ (mv : String) (mver : toySemver.Ver) (vinfo : VersionInfo),
      (mv, vinfo) ∈ metaC1.versions ∧ toySemver.newVersion mv = some mver
      ∧ toySemver.check cC1 mver = true
      ∧ resolvePackage toySemver metaC1 ⟨"p", "^1.0.0"⟩ =
          .ok ⟨mv, vinfo.tarball, vinfo.dependencies⟩
      ∧ ∀ p ∈ metaC1.versions, ∀ wv : toySemver.Ver, toySemver.newVersion p.1 = some wv →
          toySemver.check cC1 wv = true → toySemver.gt wv mver = false :=
  ((resolvePackage_spec toySemver metaC1 ⟨"p", "^1.0.0"⟩ toySemver_gt_irrefl
      toySemver_gt_trans (by decide) (by decide)).2.2 cC1 (by decide) (by decide)).1
    ⟨("1.0.0", ⟨"u1", []⟩), by decide, (1, 0, 0), by decide, by decide⟩

/-! ## Properties of cache population -/

theorem extractOne_trace (fs : FS) (dest : Path) (e : TarEntry) (disk : List Path) :
    (extractOne fs dest e disk).2.2 = [] ∨
      ∃ t, (extractOne fs dest e disk).2.2 = [Ev.extractOp t] := by
  simp only [extractOne]
  split
  · exact Or.inl rfl
  · split_ifs <;> exact Or.inr ⟨_, rfl⟩

theorem extractOne_mono (fs : FS) (dest : Path) (e : TarEntry) (disk : List Path) :
    ∀ p ∈ disk, p ∈ (extractOne fs dest e disk).2.1 := by
  intro p hp
  simp only [extractOne]
  split
  · exact hp
  · split_ifs <;> simp [mkdirAllD, hp]

theorem extractEntries_mono (fs : FS) (dest : Path) :
    ∀ (entries : List TarEntry) (disk : List Path), ∀ p ∈ disk,
      p ∈ (extractEntries fs dest entries disk).2.1 := by
  intro entries
  induction entries with
  | nil => intro disk p hp; simpa [extractEntries] using hp
  | cons e rest ih =>
    intro disk p hp
    simp only [extractEntries]
    rcases h1 : extractOne fs dest e disk with ⟨r1, d1, t1⟩
    have hd1 : p ∈ d1 := by
      have := extractOne_mono fs dest e disk p hp
      rw [h1] at this
      exact this
    cases r1 with
    | error err => exact hd1
    | ok _ =>
      dsimp only
      rcases h2 : extractEntries fs dest rest d1 with ⟨r2, d2, t2⟩
      have := ih d1 p hd1
      rw [h2] at this
      exact this

theorem extractEntries_events (fs : FS) (dest : Path) :
    ∀ (entries : List TarEntry) (disk : List Path),
      ∀ ev ∈ (extractEntries fs dest entries disk).2.2, isExtractEv ev = true := by
  intro entries
  induction entries with
  | nil => intro disk ev hev; simp [extractEntries] at hev
  | cons e rest ih =>
    intro disk ev hev
    simp only [extractEntries] at hev
    rcases h1 : extractOne fs dest e disk with ⟨r1, d1, t1⟩
    rw [h1] at hev
    have ht1 : ∀ ev ∈ t1, isExtractEv ev = true := by
      intro ev' hev'
      rcases extractOne_trace fs dest e disk with hsh | ⟨t, hsh⟩ <;> rw [h1] at hsh <;>
        dsimp only at hsh <;> rw [hsh] at hev'
      · simp at hev'
      · rcases List.mem_singleton.mp hev' with he
        rw [he]
        rfl
    cases r1 with
    | error err => exact ht1 ev hev
    | ok _ =>
      dsimp only at hev
      rcases h2 : extractEntries fs dest rest d1 with ⟨r2, d2, t2⟩
      rw [h2] at hev
      dsimp only at hev
      rcases List.mem_append.mp hev with hm | hm
      · exact ht1 ev hm
      · have := ih d1 ev
        rw [h2] at this
        exact this hm

theorem extractEntries_ok_append (fs : FS) (dest : Path) :
    ∀ (pre post : List TarEntry) (disk d1 : List Path) (t1 : List Ev)
      (r2 : Except Err Unit) (d2 : List Path) (t2 : List Ev),
      extractEntries fs dest pre disk = (.ok (), d1, t1) →
      extractEntries fs dest post d1 = (r2, d2, t2) →
      extractEntries fs dest (pre ++ post) disk = (r2, d2, t1 ++ t2) := by
  intro pre
  induction pre with
  | nil =>
    intro post disk d1 t1 r2 d2 t2 h1 h2
    simp only [extractEntries] at h1
    injection h1 with ha hb
    injection hb with hb1 hb2
    subst hb1
    subst hb2
    simpa using h2
  | cons e rest ih =>
    intro post disk d1 t1 r2 d2 t2 h1 h2
    simp only [extractEntries] at h1 ⊢
    rcases he : extractOne fs dest e disk with ⟨re, de, te⟩
    rw [he] at h1
    cases re with
    | error err =>
      exfalso
      injection h1 with ha
      cases ha
    | ok _ =>
      dsimp only at h1 ⊢
      rcases hr : extractEntries fs dest (rest ++ post) de with ⟨rr, dr, tr⟩
      rcases hrest : extractEntries fs dest rest de with ⟨rr0, dr0, tr0⟩
      rw [hrest] at h1
      dsimp only at h1
      injection h1 with ha hb
      injection hb with hb1 hb2
      have hrr0 : rr0 = Except.ok () := by rw [ha]
      rw [hrr0] at hrest
      rw [hb1] at hrest
      have := ih post de d1 tr0 r2 d2 t2 hrest h2
      rw [hr] at this
      injection this with ha2 hb'
      injection hb' with hb1' hb2'
      dsimp only
      rw [ha2, hb1', hb2', ← hb2, List.append_assoc]

/-- C4: the cache-or-fetch decision: when the cache path already exists
on disk, `ensureCached` performs no network fetch and no extraction work
at all (its effect trace is empty and the state is unchanged); when it
does not exist, exactly one archive fetch happens, first, and every
further effect is extraction work. -/
theorem ensureCached_spec (env : Env) (tarball : String) (cachePath : Path) (st : St) :
    (cachePath ∈ st.disk →
      ensureCached env tarball cachePath st = (.ok (), st, []))
    ∧ (cachePath ∉ st.disk →
      ∃ (r : Except Err Unit) (st' : St) (tr : List Ev),
        ensureCached env tarball cachePath st = (r, st', Ev.archiveFetch tarball :: tr)
        ∧ (∀ ev ∈ tr, isExtractEv ev = true)
        ∧ tr.countP (fun ev => isFetchEv ev) = 0) := by
  constructor
  · intro hmem
    simp only [ensureCached]
    rw [if_pos hmem]
  · intro hmem
    simp only [ensureCached, downloadAndExtract]
    rw [if_neg hmem]
    cases hf : env.fetchArchive tarball with
    | error e =>
      exact ⟨.error e, st, [], rfl, by intro ev hev; simp at hev, rfl⟩
    | ok entries =>
      dsimp only
      rcases hx : extractEntries env.fs cachePath entries st.disk with ⟨r, d, tr⟩
      have hev : ∀ ev ∈ tr, isExtractEv ev = true := by
        intro ev h
        have := extractEntries_events env.fs cachePath entries st.disk ev
        rw [hx] at this
        exact this h
      refine ⟨r, { st with disk := d }, tr, rfl, hev, ?_⟩
      rw [List.countP_eq_zero]
      intro ev h
      have he := hev ev h
      cases ev <;> simp_all [isExtractEv, isFetchEv]

/-- Closed instance of `ensureCached_spec`: the cached branch at a
one-element disk. -/
theorem ensureCached_spec_witness :
    ensureCached envW "u" ["c"] ⟨[], [["c"]], []⟩ = (.ok (), ⟨[], [["c"]], []⟩, []) :=
  (ensureCached_spec envW "u" ["c"] ⟨[], [["c"]], []⟩).1 (by decide)

/-- C5 (amended): a failing extraction, directory-creation or file-copy
step makes the whole extraction return that step's error with the walk
stopped there; nothing written before the failure is cleaned up (the
disk only grows), and *when the cache path directory itself is among the
surviving paths* a later `ensureCached` of the same package treats the
entry as complete: it returns success with no fetch and no extraction.
(The unamended claim is refuted by `extract_failure_counterexample`:
when the very first operation fails, the cache path directory was never
created and a later install fetches again.) -/
theorem extract_failure_no_cleanup (env : Env) (tarball : String) (dest : Path)
    (pre : List TarEntry) (bad : TarEntry) (post : List TarEntry)
    (disk d1 d2 : List Path) (t1 t2 : List Ev) (err : Err)
    (h1 : extractEntries env.fs dest pre disk = (.ok (), d1, t1))
    (h2 : extractOne env.fs dest bad d1 = (.error err, d2, t2)) :
    extractEntries env.fs dest (pre ++ bad :: post) disk = (.error err, d2, t1 ++ t2)
    ∧ (∀ p ∈ disk, p ∈ d2)
    ∧ (∀ p ∈ d1, p ∈ d2)
    ∧ (∀ st : St, st.disk = d2 → dest ∈ d2 →
        ensureCached env tarball dest st = (.ok (), st, [])) := by
  have hmono1 : ∀ p ∈ d1, p ∈ d2 := by
    intro p hp
    have := extractOne_mono env.fs dest bad d1 p hp
    rw [h2] at this
    exact this
  refine ⟨?_, ?_, hmono1, ?_⟩
  · have hstep : extractEntries env.fs dest (bad :: post) d1 = (.error err, d2, t2) := by
      simp only [extractEntries, h2]
    exact extractEntries_ok_append env.fs dest pre (bad :: post) disk d1 t1
      (.error err) d2 t2 h1 hstep
  · intro p hp
    apply hmono1
    have := extractEntries_mono env.fs dest pre disk p hp
    rw [h1] at this
    exact this
  · intro st hst hdest
    simp only [ensureCached]
    rw [if_pos (by rw [hst]; exact hdest)]

/-- Cache location used by the closed extraction scenarios. -/
def destC5 : Path := ["home", "user", ".cache", "npm-go", "pkg", "1.0.0"]

/-- Filesystem oracles where creating the cache directory itself fails. -/
def fsBadC5 : FS :=
  { fsOk with mkdirFails := fun p => decide (p = destC5) }

/-- Environment with the failing oracle of `fsBadC5`. -/
def envBadC5 : Env := { envW with fs := fsBadC5 }

/-- Counterexample to C5 as stated: when the very first extraction
operation (creating the cache directory for the first file entry) is the
failing step, nothing was written, the cache path directory does not
exist afterwards, and a later `ensureCached` of the same package
performs an archive fetch rather than skipping it. -/
theorem extract_failure_counterexample :
    extractEntries envBadC5.fs destC5 [⟨"package/index.js", false⟩] [] =
      (.error (.wrap ("mkdir parent " ++ pathStr (destC5 ++ ["index.js"]))
        (.fsMkdir destC5)), [], [.extractOp (destC5 ++ ["index.js"])])
    ∧ destC5 ∉ ([] : List Path)
    ∧ (ensureCached envBadC5 "u" destC5 ⟨[], [], []⟩).2.2.countP
        (fun ev => isFetchEv ev) = 1 := by
  refine ⟨by decide, by decide, by decide⟩

/-- Filesystem oracles where copying into the file `b` of the cache
entry fails. -/
def fsBadW : FS := { fsOk with copyFails := fun p => decide (p = destC5 ++ ["b"]) }

/-- Environment with the failing copy oracle of `fsBadW`. -/
def envBadW : Env := { envW with fs := fsBadW }

/-- The ancestor directories of `destC5`, in creation order. -/
def ancC5 : List Path :=
  [["home"], ["home", "user"], ["home", "user", ".cache"],
    ["home", "user", ".cache", "npm-go"], ["home", "user", ".cache", "npm-go", "pkg"], destC5]

/-- Disk contents after extracting `package/a` into `destC5`. -/
def d1W : List Path := ancC5 ++ [destC5 ++ ["a"]]

/-- Disk contents after the failed copy of `package/b`. -/
def d2W : List Path := d1W ++ (ancC5 ++ [destC5 ++ ["b"]])

/-- The error of the failed copy of `package/b`. -/
def errC5W : Err :=
  .wrap ("copy to " ++ pathStr (destC5 ++ ["b"])) (.fsCopy (destC5 ++ ["b"]))

/-- Closed instance of `extract_failure_no_cleanup`: the copy of
`package/b` fails after `package/a` extracted; everything extracted so
far (including the half-written `b`) stays on disk, the sibling
`package/c` is never extracted, and a later `ensureCached` of the same
entry skips the fetch. -/
theorem extract_failure_no_cleanup_witness :
    extractEntries envBadW.fs destC5
        ([⟨"package/a", false⟩] ++ ⟨"package/b", false⟩ :: [⟨"package/c", false⟩]) [] =
      (.error errC5W, d2W, [Ev.extractOp (destC5 ++ ["a"])] ++ [Ev.extractOp (destC5 ++ ["b"])])
    ∧ (∀ p ∈ ([] : List Path), p ∈ d2W)
    ∧ (∀ p ∈ d1W, p ∈ d2W)
    ∧ (∀ st : St, st.disk = d2W → destC5 ∈ d2W →
        ensureCached envBadW "u" destC5 st = (.ok (), st, [])) :=
  extract_failure_no_cleanup envBadW "u" destC5 [⟨"package/a", false⟩] ⟨"package/b", false⟩
    [⟨"package/c", false⟩] [] d1W d2W [Ev.extractOp (destC5 ++ ["a"])]
    [Ev.extractOp (destC5 ++ ["b"])] errC5W (by decide) (by decide)

/-- C6: a tar entry name carrying the `package/` prefix but containing a
`..` segment escapes the cache directory: the computed extraction target
is not below the cache path, and fault-free extraction of that single
entry creates a filesystem entry outside the cache entry being
populated. -/
theorem tar_entry_escapes_cache :
    stripPkgRoot ("package/../evil.txt").toList = some ("../evil.txt").toList
    ∧ cleanSegs destC5 (splitSlash "../evil.txt") =
        ["home", "user", ".cache", "npm-go", "pkg", "evil.txt"]
    ∧ destC5.isPrefixOf (cleanSegs destC5 (splitSlash "../evil.txt")) = false
    ∧ (extractOne fsOk destC5 ⟨"package/../evil.txt", false⟩ []).1 = .ok ()
    ∧ cleanSegs destC5 (splitSlash "../evil.txt") ∈
        (extractOne fsOk destC5 ⟨"package/../evil.txt", false⟩ []).2.1 := by
  refine ⟨by decide, by decide, by decide, by decide, by decide⟩

/-! ## Properties of the link step -/

theorem isPrefixOf_self (l : Path) : l.isPrefixOf l = true := by
  rw [ List.isPrefixOf_iff_prefix]

theorem ancestors_length_le (q : Path) : ∀ p ∈ ancestors q, p.length ≤ q.length := by
  intro p hp
  rcases List.mem_map.mp hp with ⟨i, _, hp'⟩
  rw [← hp']
  simp

theorem removeAllD_no_link (st : St) (lp : Path) :
    ∀ q ∈ (removeAllD st lp).links, ¬ q.1 = lp := by
  intro q hq he
  have h2 := (List.mem_filter.mp hq).2
  rw [he] at h2
  rw [isPrefixOf_self] at h2
  simp at h2

theorem removeAllD_no_disk (st : St) (lp : Path) : lp ∉ (removeAllD st lp).disk := by
  intro h
  have h2 := (List.mem_filter.mp h).2
  rw [isPrefixOf_self] at h2
  simp at h2

theorem self_notMem_ancestors_dropLast (lp : Path) : lp ∉ ancestors lp.dropLast := by
  intro hmem
  rcases List.mem_map.mp hmem with ⟨i, hi, he⟩
  have hi' : i < lp.dropLast.length := List.mem_range.mp hi
  have hlen : lp.length = min (i + 1) lp.dropLast.length := by
    conv_lhs => rw [← he]
    simp
  rw [List.length_dropLast] at hi' hlen
  omega

theorem linkStep_ok (env : Env) (name : String) (cachePath : Path) (st : St)
    (st' : St) (tr : List Ev)
    (h : linkStep env name cachePath st = (.ok (), st', tr)) :
    st'.links.filter (fun q => q.1 = linkPathOf name) = [(linkPathOf name, cachePath)]
    ∧ tr = [.link (linkPathOf name) cachePath]
    ∧ (∀ p ∈ ancestors (linkPathOf name).dropLast, p ∈ st'.disk) := by
  simp only [linkStep] at h
  set st1 := if env.fs.removeAllFails (linkPathOf name) = true then st
    else removeAllD st (linkPathOf name) with hst1
  by_cases hm : env.fs.mkdirFails (linkPathOf name).dropLast = true
  · rw [if_pos hm] at h
    simp at h
  rw [if_neg hm] at h
  by_cases hs : env.fs.symlinkFails (linkPathOf name) = true
      ∨ (∃ q ∈ st1.links, q.1 = linkPathOf name)
      ∨ linkPathOf name ∈ mkdirAllD st1.disk (linkPathOf name).dropLast
  · rw [if_pos hs] at h
    simp at h
  rw [if_neg hs] at h
  push_neg at hs
  injection h with h1 h2
  injection h2 with h2a h2b
  rw [← h2a, ← h2b]
  refine ⟨?_, rfl, ?_⟩
  · show ((linkPathOf name, cachePath) :: st1.links).filter
        (fun q => decide (q.1 = linkPathOf name)) = [(linkPathOf name, cachePath)]
    rw [List.filter_cons_of_pos (by simp)]
    rw [List.filter_eq_nil_iff.mpr (fun q hq => by simpa using hs.2.1 q hq)]
  · intro p hp
    show p ∈ mkdirAllD st1.disk (linkPathOf name).dropLast
    exact List.mem_append.mpr (Or.inr hp)

theorem linkStep_links_bound (env : Env) (name : String) (cachePath : Path) (st : St)
    (q : Path) :
    ∀ (r : Except Err Unit) (st' : St) (tr : List Ev),
      linkStep env name cachePath st = (r, st', tr) →
      (st.links.filter (fun e => e.1 = q)).length ≤ 1 →
      (st'.links.filter (fun e => e.1 = q)).length ≤ 1 := by
  intro r st' tr h hb
  simp only [linkStep] at h
  set st1 := if env.fs.removeAllFails (linkPathOf name) = true then st
    else removeAllD st (linkPathOf name) with hst1
  have hsub : List.Sublist st1.links st.links := by
    rw [hst1]
    split
    · exact List.Sublist.refl _
    · exact List.filter_sublist _
  have hbound1 : (st1.links.filter (fun e => e.1 = q)).length ≤ 1 :=
    le_trans (hsub.filter _).length_le hb
  by_cases hm : env.fs.mkdirFails (linkPathOf name).dropLast = true
  · rw [if_pos hm] at h
    injection h with h1 h2
    injection h2 with h2a h2b
    rw [← h2a]
    exact hbound1
  rw [if_neg hm] at h
  by_cases hs : env.fs.symlinkFails (linkPathOf name) = true
      ∨ (∃ p ∈ st1.links, p.1 = linkPathOf name)
      ∨ linkPathOf name ∈ mkdirAllD st1.disk (linkPathOf name).dropLast
  · rw [if_pos hs] at h
    injection h with h1 h2
    injection h2 with h2a h2b
    rw [← h2a]
    exact hbound1
  rw [if_neg hs] at h
  push_neg at hs
  injection h with h1 h2
  injection h2 with h2a h2b
  rw [← h2a]
  show (((linkPathOf name, cachePath) :: st1.links).filter
      (fun e => decide (e.1 = q))).length ≤ 1
  by_cases hq : linkPathOf name = q
  · rw [List.filter_cons_of_pos (by simp [hq])]
    rw [List.filter_eq_nil_iff.mpr (fun p hp => by
      have := hs.2.1 p hp
      simp [← hq]
      exact this)]
    simp
  · rw [List.filter_cons_of_neg (by simp [hq])]
    exact hbound1

/-- C7: the link step holds the install root at one entry per name: a
successful link leaves exactly one link at the per-name location,
pointing at the given cache path, with the parent directory ensured; the
at-most-one-link-per-location invariant is preserved by every outcome;
with fault-free removal, directory creation and symlinking the step
succeeds (the prior entry for the name, if any, was removed first — so a
second install of the same name silently replaces the link even for a
different cache path, final conjunct); and a directory-creation or
symlink failure surfaces as the corresponding wrapped link error. -/
theorem linkStep_spec (env : Env) (name : String) (cachePath : Path) (st : St) :
    (∀ (st' : St) (tr : List Ev), linkStep env name cachePath st = (.ok (), st', tr) →
      st'.links.filter (fun q => q.1 = linkPathOf name) = [(linkPathOf name, cachePath)]
      ∧ tr = [.link (linkPathOf name) cachePath]
      ∧ (∀ p ∈ ancestors (linkPathOf name).dropLast, p ∈ st'.disk))
    ∧ (∀ (q : Path) (r : Except Err Unit) (st' : St) (tr : List Ev),
      linkStep env name cachePath st = (r, st', tr) →
      (st.links.filter (fun e => e.1 = q)).length ≤ 1 →
      (st'.links.filter (fun e => e.1 = q)).length ≤ 1)
    ∧ (env.fs.removeAllFails (linkPathOf name) = false →
      env.fs.mkdirFails (linkPathOf name).dropLast = false →
      env.fs.symlinkFails (linkPathOf name) = false →
      ∃ st' : St, linkStep env name cachePath st =
        (.ok (), st', [.link (linkPathOf name) cachePath]))
    ∧ (env.fs.mkdirFails (linkPathOf name).dropLast = true →
      ∃ st' : St, linkStep env name cachePath st =
        (.error (.wrap ("create parent dir for " ++ pathStr (linkPathOf name))
          (.fsMkdir (linkPathOf name).dropLast)), st', []))
    ∧ (env.fs.mkdirFails (linkPathOf name).dropLast = false →
      env.fs.symlinkFails (linkPathOf name) = true →
      ∃ st' : St, linkStep env name cachePath st =
        (.error (.wrap ("symlink " ++ pathStr cachePath ++ " -> " ++ pathStr (linkPathOf name))
          (.fsSymlink (linkPathOf name))), st', []))
    ∧ (∀ (c2 : Path) (st' st'' : St) (tr tr' : List Ev),
      linkStep env name cachePath st = (.ok (), st', tr) →
      linkStep env name c2 st' = (.ok (), st'', tr') →
      st''.links.filter (fun q => q.1 = linkPathOf name) = [(linkPathOf name, c2)]) := by
  refine ⟨?_, ?_, ?_, ?_, ?_, ?_⟩
  · exact fun st' tr h => linkStep_ok env name cachePath st st' tr h
  · exact fun q r st' tr h hb => linkStep_links_bound env name cachePath st q r st' tr h hb
  · intro hr hm hsy
    have hcond : ¬ (env.fs.symlinkFails (linkPathOf name) = true
        ∨ (∃ q ∈ (removeAllD st (linkPathOf name)).links, q.1 = linkPathOf name)
        ∨ linkPathOf name ∈ mkdirAllD (removeAllD st (linkPathOf name)).disk
            (linkPathOf name).dropLast) := by
      intro hc
      rcases hc with hc | hc | hc
      · rw [hsy] at hc
        simp at hc
      · rcases hc with ⟨q, hq, he⟩
        exact removeAllD_no_link st (linkPathOf name) q hq he
      · rcases List.mem_append.mp hc with hc' | hc'
        · exact removeAllD_no_disk st (linkPathOf name) hc'
        · exact self_notMem_ancestors_dropLast (linkPathOf name) hc'
    simp only [linkStep]
    rw [if_neg (show ¬ env.fs.removeAllFails (linkPathOf name) = true by rw [hr]; simp),
      if_neg (show ¬ env.fs.mkdirFails (linkPathOf name).dropLast = true by rw [hm]; simp),
      if_neg hcond]
    exact ⟨_, rfl⟩
  · intro hm
    simp only [linkStep]
    rw [if_pos hm]
    exact ⟨_, rfl⟩
  · intro hm hsy
    simp only [linkStep]
    rw [if_neg (show ¬ env.fs.mkdirFails (linkPathOf name).dropLast = true by rw [hm]; simp),
      if_pos (Or.inl hsy)]
    exact ⟨_, rfl⟩
  · intro c2 st' st'' tr tr' h1 h2
    exact (linkStep_ok env name c2 st' st'' tr' h2).1

/-- Closed instance of `linkStep_spec`: the fault-free success case at a
concrete name and cache path. -/
theorem linkStep_spec_witness :
    ∃ st' : St, linkStep envW "leftpad" ["c", "p"] St.init =
      (.ok (), st', [.link (linkPathOf "leftpad") ["c", "p"]]) :=
  (linkStep_spec envW "leftpad" ["c", "p"] St.init).2.2.1 (by decide) (by decide) (by decide)

/-! ## Properties of the install orchestrator -/

theorem installDepsF_ok_append (instF : PackageInfo → St → Except Err Unit × St × List Ev) :
    ∀ (pre post : List (String × String)) (st st1 : St) (t1 : List Ev)
      (r2 : Except Err Unit) (st2 : St) (t2 : List Ev),
      installDepsF instF pre st = (.ok (), st1, t1) →
      installDepsF instF post st1 = (r2, st2, t2) →
      installDepsF instF (pre ++ post) st = (r2, st2, t1 ++ t2) := by
  intro pre
  induction pre with
  | nil =>
    intro post st st1 t1 r2 st2 t2 h1 h2
    simp only [installDepsF] at h1
    injection h1 with ha hb
    injection hb with hb1 hb2
    subst hb1
    subst hb2
    simpa using h2
  | cons d rest ih =>
    intro post st st1 t1 r2 st2 t2 h1 h2
    rcases d with ⟨dn, dv⟩
    simp only [installDepsF] at h1 ⊢
    rcases he : instF ⟨dn, dv⟩ st with ⟨re, se, te⟩
    rw [he] at h1
    cases re with
    | error err =>
      exfalso
      injection h1 with ha
      cases ha
    | ok _ =>
      dsimp only at h1 ⊢
      rcases hr : installDepsF instF (rest ++ post) se with ⟨rr, dr, tr⟩
      rcases hrest : installDepsF instF rest se with ⟨rr0, dr0, tr0⟩
      rw [hrest] at h1
      dsimp only at h1
      injection h1 with ha hb
      injection hb with hb1 hb2
      have hrr0 : rr0 = Except.ok () := by rw [ha]
      rw [hrr0] at hrest
      rw [hb1] at hrest
      have := ih post se st1 tr0 r2 st2 t2 hrest h2
      rw [hr] at this
      injection this with ha2 hb'
      injection hb' with hb1' hb2'
      dsimp only
      rw [ha2, hb1', hb2', ← hb2, List.append_assoc]

theorem installDepsF_mono (instF : PackageInfo → St → Except Err Unit × St × List Ev)
    (hm : ∀ (p : PackageInfo) (s : St), ∀ k ∈ s.installed, k ∈ (instF p s).2.1.installed) :
    ∀ (deps : List (String × String)) (st : St), ∀ k ∈ st.installed,
      k ∈ (installDepsF instF deps st).2.1.installed := by
  intro deps
  induction deps with
  | nil => intro st k hk; simpa [installDepsF] using hk
  | cons d rest ih =>
    intro st k hk
    rcases d with ⟨dn, dv⟩
    simp only [installDepsF]
    rcases h1 : instF ⟨dn, dv⟩ st with ⟨r1, s1, t1⟩
    have hk1 : k ∈ s1.installed := by
      have := hm ⟨dn, dv⟩ st k hk
      rw [h1] at this
      exact this
    cases r1 with
    | error e => exact hk1
    | ok _ =>
      dsimp only
      rcases h2 : installDepsF instF rest s1 with ⟨r2, s2, t2⟩
      have := ih s1 k hk1
      rw [h2] at this
      exact this

theorem ensureCached_installed (env : Env) (t : String) (p : Path) (s : St) :
    (ensureCached env t p s).2.1.installed = s.installed := by
  simp only [ensureCached]
  split
  · rfl
  · rcases h : downloadAndExtract env t p s.disk with ⟨r, d, tr⟩
    rfl

theorem linkStep_installed (env : Env) (n : String) (c : Path) (s : St) :
    (linkStep env n c s).2.1.installed = s.installed := by
  simp only [linkStep]
  set st1 := if env.fs.removeAllFails (linkPathOf n) = true then s
    else removeAllD s (linkPathOf n) with hst1
  have h1 : st1.installed = s.installed := by
    rw [hst1]
    split <;> rfl
  split
  · exact h1
  · split
    · exact h1
    · exact h1

theorem install_installed_mono (env : Env) :
    ∀ (fuel : Nat) (pkg : PackageInfo) (st : St), ∀ k ∈ st.installed,
      k ∈ (Install env fuel pkg st).2.1.installed := by
  intro fuel
  induction fuel with
  | zero => intro pkg st k hk; simpa [Install] using hk
  | succ fuel ih =>
    intro pkg st k hk
    simp only [Install]
    by_cases hmem : pkg.name ++ "@" ++ pkg.version ∈ st.installed
    · rw [if_pos hmem]
      exact hk
    rw [if_neg hmem]
    have hk0 : k ∈ ((pkg.name ++ "@" ++ pkg.version) :: st.installed) :=
      List.mem_cons_of_mem _ hk
    cases hres : resolveFull env pkg with
    | error e => exact hk0
    | ok res =>
      dsimp only
      cases hcp : getCachePath env ⟨pkg.name, res.version⟩ with
      | error e => exact hk0
      | ok cachePath =>
        dsimp only
        rcases hec : ensureCached env res.tarball cachePath
            { st with installed := (pkg.name ++ "@" ++ pkg.version) :: st.installed } with
          ⟨r1, s1, t1⟩
        have hs1 : s1.installed = (pkg.name ++ "@" ++ pkg.version) :: st.installed := by
          have := ensureCached_installed env res.tarball cachePath
            { st with installed := (pkg.name ++ "@" ++ pkg.version) :: st.installed }
          rw [hec] at this
          exact this
        cases r1 with
        | error e => exact hs1 ▸ hk0
        | ok _ =>
          dsimp only
          rcases hls : linkStep env pkg.name cachePath s1 with ⟨r2, s2, t2⟩
          have hs2 : s2.installed = (pkg.name ++ "@" ++ pkg.version) :: st.installed := by
            have := linkStep_installed env pkg.name cachePath s1
            rw [hls] at this
            dsimp only at this
            rw [this, hs1]
          cases r2 with
          | error e => exact hs2 ▸ hk0
          | ok _ =>
            dsimp only
            rcases hid : installDepsF (fun p s => Install env fuel p s) res.deps s2 with
              ⟨r3, s3, t3⟩
            have := installDepsF_mono (fun p s => Install env fuel p s)
              (fun p s k' hk' => ih p s k' hk') res.deps s2 k (hs2 ▸ hk0)
            rw [hid] at this
            exact this

theorem install_marks_key (env : Env) :
    ∀ (fuel : Nat) (pkg : PackageInfo) (st : St) (r : Except Err Unit) (st' : St)
      (tr : List Ev),
      Install env (fuel + 1) pkg st = (r, st', tr) →
      pkg.name ++ "@" ++ pkg.version ∈ st'.installed := by
  intro fuel pkg st r st' tr h
  simp only [Install] at h
  by_cases hmem : pkg.name ++ "@" ++ pkg.version ∈ st.installed
  · rw [if_pos hmem] at h
    injection h with h1 h2
    injection h2 with h2a h2b
    rw [← h2a]
    exact hmem
  rw [if_neg hmem] at h
  have hkey : pkg.name ++ "@" ++ pkg.version ∈
      ((pkg.name ++ "@" ++ pkg.version) :: st.installed) := List.mem_cons_self _ _
  cases hres : resolveFull env pkg with
  | error e =>
    rw [hres] at h
    dsimp only at h
    injection h with h1 h2
    injection h2 with h2a h2b
    rw [← h2a]
    exact hkey
  | ok res =>
    rw [hres] at h
    dsimp only at h
    cases hcp : getCachePath env ⟨pkg.name, res.version⟩ with
    | error e =>
      rw [hcp] at h
      dsimp only at h
      injection h with h1 h2
      injection h2 with h2a h2b
      rw [← h2a]
      exact hkey
    | ok cachePath =>
      rw [hcp] at h
      dsimp only at h
      rcases hec : ensureCached env res.tarball cachePath
          { st with installed := (pkg.name ++ "@" ++ pkg.version) :: st.installed } with
        ⟨r1, s1, t1⟩
      rw [hec] at h
      have hs1 : s1.installed = (pkg.name ++ "@" ++ pkg.version) :: st.installed := by
        have := ensureCached_installed env res.tarball cachePath
          { st with installed := (pkg.name ++ "@" ++ pkg.version) :: st.installed }
        rw [hec] at this
        exact this
      cases r1 with
      | error e =>
        dsimp only at h
        injection h with h1 h2
        injection h2 with h2a h2b
        rw [← h2a, hs1]
        exact hkey
      | ok _ =>
        dsimp only at h
        rcases hls : linkStep env pkg.name cachePath s1 with ⟨r2, s2, t2⟩
        rw [hls] at h
        have hs2 : s2.installed = (pkg.name ++ "@" ++ pkg.version) :: st.installed := by
          have := linkStep_installed env pkg.name cachePath s1
          rw [hls] at this
          dsimp only at this
          rw [this, hs1]
        cases r2 with
        | error e =>
          dsimp only at h
          injection h with h1 h2
          injection h2 with h2a h2b
          rw [← h2a, hs2]
          exact hkey
        | ok _ =>
          dsimp only at h
          rcases hid : installDepsF (fun p s => Install env fuel p s) res.deps s2 with
            ⟨r3, s3, t3⟩
          rw [hid] at h
          dsimp only at h
          injection h with h1 h2
          injection h2 with h2a h2b
          rw [← h2a]
          have := installDepsF_mono (fun p s => Install env fuel p s)
            (fun p s k' hk' => install_installed_mono env fuel p s k' hk') res.deps s2
            (pkg.name ++ "@" ++ pkg.version) (hs2 ▸ hkey)
          rw [hid] at this
          exact this

/-- C3: `Install` memoizes on the requested `(name, selector)` pair (as
the key `name ++ "@" ++ selector`), not on the resolved version: a
visited key returns success immediately, with no resolver call, no cache
work and no linking (state unchanged, empty effect trace); the key is
marked before any further work, so whatever the outcome — including an
error — the key is in the visited set afterwards and a repeat call with
the same pair in the same process returns success immediately without
retrying anything. -/
theorem install_memoization (env : Env) (fuel fuel2 : Nat) (pkg : PackageInfo) (st : St) :
    (pkg.name ++ "@" ++ pkg.version ∈ st.installed →
      Install env (fuel + 1) pkg st = (.ok (), st, []))
    ∧ (∀ (r : Except Err Unit) (st' : St) (tr : List Ev),
      Install env (fuel + 1) pkg st = (r, st', tr) →
      pkg.name ++ "@" ++ pkg.version ∈ st'.installed
      ∧ Install env (fuel2 + 1) pkg st' = (.ok (), st', [])) := by
  have hhit : ∀ (f : Nat) (s : St), pkg.name ++ "@" ++ pkg.version ∈ s.installed →
      Install env (f + 1) pkg s = (.ok (), s, []) := by
    intro f s hmem
    simp only [Install]
    rw [if_pos hmem]
  constructor
  · exact hhit fuel st
  · intro r st' tr h
    have hmark := install_marks_key env fuel pkg st r st' tr h
    exact ⟨hmark, hhit fuel2 st' hmark⟩

/-- Closed instance of `install_memoization`: the repeat call after a
failed install of `x@1` is an immediate success. -/
theorem install_memoization_witness :
    Install envW 1 ⟨"x", "1"⟩ ⟨["x@1"], [], []⟩ = (.ok (), ⟨["x@1"], [], []⟩, []) :=
  ((install_memoization envW 0 0 ⟨"x", "1"⟩ St.init).2
    (.error (.wrap "resolve x@1" (.invalidConstraint "1"))) ⟨["x@1"], [], []⟩
    [.metadataFetch "https://registry.npmjs.org/x"] (by decide)).2

/-- C8: after resolving, caching and linking, `Install` runs its
dependency loop sequentially: runs over a prefix compose (first
conjunct), and when the install of a dependency fails, the loop returns
that error wrapped with the dependency's `name@selector` context, the
state and trace stop at the failing dependency, and the remaining
sibling dependencies are never attempted (second conjunct). -/
theorem install_deps_sequential (env : Env) (fuel : Nat) :
    (∀ (pre post : List (String × String)) (st st1 : St) (t1 : List Ev)
      (r2 : Except Err Unit) (st2 : St) (t2 : List Ev),
      installDeps env fuel pre st = (.ok (), st1, t1) →
      installDeps env fuel post st1 = (r2, st2, t2) →
      installDeps env fuel (pre ++ post) st = (r2, st2, t1 ++ t2))
    ∧ (∀ (pre : List (String × String)) (d : String × String)
      (post : List (String × String)) (st st1 st2 : St) (t1 t2 : List Ev) (e : Err),
      installDeps env fuel pre st = (.ok (), st1, t1) →
      Install env fuel ⟨d.1, d.2⟩ st1 = (.error e, st2, t2) →
      installDeps env fuel (pre ++ d :: post) st =
        (.error (.wrap ("install dep " ++ d.1 ++ "@" ++ d.2) e), st2, t1 ++ t2)) := by
  constructor
  · intro pre post st st1 t1 r2 st2 t2 h1 h2
    exact installDepsF_ok_append (fun p s => Install env fuel p s) pre post st st1 t1
      r2 st2 t2 h1 h2
  · intro pre d post st st1 st2 t1 t2 e h1 h2
    rcases d with ⟨dn, dv⟩
    have hstep : installDeps env fuel ((dn, dv) :: post) st1 =
        (.error (.wrap ("install dep " ++ dn ++ "@" ++ dv) e), st2, t2) := by
      simp only [installDeps, installDepsF, h2]
    exact installDepsF_ok_append (fun p s => Install env fuel p s) pre ((dn, dv) :: post)
      st st1 t1 _ st2 t2 h1 hstep

/-- Closed instance of `install_deps_sequential`: the failing dependency
`x@1` aborts the loop before its sibling `y@1.0.0`. -/
theorem install_deps_sequential_witness :
    installDeps envW 1 ([] ++ ("x", "1") :: [("y", "1.0.0")]) St.init =
      (.error (.wrap ("install dep " ++ ("x", "1").1 ++ "@" ++ ("x", "1").2)
        (.wrap "resolve x@1" (.invalidConstraint "1"))), ⟨["x@1"], [], []⟩,
        [] ++ [.metadataFetch "https://registry.npmjs.org/x"]) :=
  (install_deps_sequential envW 1).2 [] ("x", "1") [("y", "1.0.0")] St.init St.init
    ⟨["x@1"], [], []⟩ [] [.metadataFetch "https://registry.npmjs.org/x"]
    (.wrap "resolve x@1" (.invalidConstraint "1")) (by decide) (by decide)

/-! ## Properties of the CLI loop -/

theorem mainGo_attempts (env : Env) (fuel : Nat) :
    ∀ (args : List String) (st : St), (mainGo env fuel args st).2.2 = args := by
  intro args
  induction args with
  | nil => intro st; rfl
  | cons arg rest ih =>
    intro st
    simp only [mainGo]
    cases hp : Parse arg with
    | error e =>
      dsimp only
      rcases hm : mainGo env fuel rest st with ⟨outs, st', att⟩
      have := ih st
      rw [hm] at this
      dsimp only at this ⊢
      rw [this]
    | ok pkg =>
      dsimp only
      rcases hi : Install env fuel pkg st with ⟨r, st1, tr⟩
      cases r with
      | error e =>
        dsimp only
        rcases hm : mainGo env fuel rest st1 with ⟨outs, st', att⟩
        have := ih st1
        rw [hm] at this
        dsimp only at this ⊢
        rw [this]
      | ok _ =>
        dsimp only
        rcases hm : mainGo env fuel rest st1 with ⟨outs, st', att⟩
        have := ih st1
        rw [hm] at this
        dsimp only at this ⊢
        rw [this]

theorem mainGo_outs_err (env : Env) (fuel : Nat) :
    ∀ (args : List String) (st : St), ∀ o ∈ (mainGo env fuel args st).1,
      isErrLine o = true := by
  intro args
  induction args with
  | nil => intro st o ho; simp [mainGo] at ho
  | cons arg rest ih =>
    intro st o ho
    simp only [mainGo] at ho
    cases hp : Parse arg with
    | error e =>
      rw [hp] at ho
      dsimp only at ho
      rcases hm : mainGo env fuel rest st with ⟨outs, st', att⟩
      rw [hm] at ho
      dsimp only at ho
      rcases List.mem_cons.mp ho with he | ho'
      · rw [he]
        rfl
      · have := ih st o
        rw [hm] at this
        exact this ho'
    | ok pkg =>
      rw [hp] at ho
      dsimp only at ho
      rcases hi : Install env fuel pkg st with ⟨r, st1, tr⟩
      rw [hi] at ho
      cases r with
      | error e =>
        dsimp only at ho
        rcases hm : mainGo env fuel rest st1 with ⟨outs, st', att⟩
        rw [hm] at ho
        dsimp only at ho
        rcases List.mem_cons.mp ho with he | ho'
        · rw [he]
          rfl
        · have := ih st1 o
          rw [hm] at this
          exact this ho'
      | ok _ =>
        dsimp only at ho
        rcases hm : mainGo env fuel rest st1 with ⟨outs, st', att⟩
        rw [hm] at ho
        dsimp only at ho
        have := ih st1 o
        rw [hm] at this
        exact this ho

/-- C9 (amended): for every *non-empty* argument list, `main` attempts
every argument in order (fourth component), a parse or install failure
only adds a failure line and never prevents the remaining arguments, the
completion line is printed last regardless of how many arguments failed,
and the exit status is `0`.  (The unamended claim quantifies over every
list; `main_empty_args_counterexample` shows the empty list prints only
the usage line and no completion line.) -/
theorem main_attempts_all (env : Env) (fuel : Nat) (args : List String) (st : St)
    (h : args ≠ []) :
    ∃ (outs : List OutLine) (st' : St),
      mainRun env fuel args st = (outs ++ [.done], st', 0, args)
      ∧ ∀ o ∈ outs, isErrLine o = true := by
  simp only [mainRun]
  rw [if_neg (by simpa [List.isEmpty_iff] using h)]
  rcases hm : mainGo env fuel args st with ⟨outs, st', att⟩
  have ha := mainGo_attempts env fuel args st
  rw [hm] at ha
  dsimp only at ha
  have he := mainGo_outs_err env fuel args st
  rw [hm] at he
  dsimp only at he
  rw [ha]
  exact ⟨outs, st', rfl, he⟩

/-- Closed instance of `main_attempts_all` at the one-element argument
list `["x@1"]`. -/
theorem main_attempts_all_witness :
    ∃ (outs : List OutLine) (st' : St),
      mainRun envW 1 ["x@1"] St.init = (outs ++ [.done], st', 0, ["x@1"])
      ∧ ∀ o ∈ outs, isErrLine o = true :=
  main_attempts_all envW 1 ["x@1"] St.init (by decide)

/-- Counterexample to C9 as stated for every list: with no arguments the
process prints only the usage line — no completion line at all. -/
theorem main_empty_args_counterexample :
    (mainRun envW 1 [] St.init).1 = [.usage]
    ∧ OutLine.done ∉ (mainRun envW 1 [] St.init).1 := by
  refine ⟨by decide, by decide⟩

end Goose
